import Mathlib

/-!
A verification development for the AlDS state-space-search core:
the three frontier containers of `alds/data_structures/queue.py`
(FIFOQueue, LIFOQueue, PriorityQueue, the last one built on CPython's
`heapq` binary min-heap, which is embedded here operation by operation),
the search-tree `Node` of `alds/data_structures/node.py` with its lazy
expansion and path reconstruction, and the `SearchProblem` contract of
`alds/search/abc.py` with its derived `successors` routine.

Python floats used as priorities and costs are modelled as `Int` (every
scenario in the specification uses integral values); Python `None` is
modelled with `Option`; exceptions (`IndexError` on empty pops, the
`TypeError` of the constructors) are modelled with `Option`/`Except`.
All recursion is structural (loops carry explicit fuel, with call sites
supplying provably sufficient fuel), so every definition evaluates by
`decide`/`rfl`.
-/

set_option maxHeartbeats 1600000
set_option autoImplicit false

namespace AlDS

/-! ### Priority-queue entries

`PriorityQueue.push` stores `(priority, self._counter, element)` tuples and
`heapq` orders them by Python's lexicographic tuple `<`.  Since the counter
is bumped on every push, no two coexisting entries ever share
`(prio, count)`, so the element component never takes part in a comparison;
the embedding therefore compares on `(prio, count)` only. -/

structure Entry (α : Type) where
  prio : Int
  count : Nat
  elem : α
deriving DecidableEq

/-- Python's `<` on `(priority, counter, _)` tuples, as executed by `heapq`
(the third component is never reached because counters are unique). -/
def entryLtB {α : Type} (a b : Entry α) : Bool :=
  a.prio < b.prio || (a.prio == b.prio && a.count < b.count)

/-- The reflexive order on entry keys used in specifications:
`a` comes no later than `b` in pop order. -/
def keyLe {α : Type} (a b : Entry α) : Prop :=
  a.prio < b.prio ∨ (a.prio = b.prio ∧ a.count ≤ b.count)

/-! ### CPython `heapq` embedded

The list models the Python list that backs the heap; index `0` is the root
and the children of index `i` are `2*i+1` and `2*i+2`. -/

def parentIdx (j : Nat) : Nat := (j - 1) / 2

/-- `heapq._siftdown(heap, startpos, pos)` with `newitem` (read from
`heap[pos]` by the Python code before the loop) passed explicitly: bubble
the new item up from `pos` towards `startpos`, moving parents down, and
finally store it.  The fuel only bounds the loop; call sites pass at least
`pos + 1`, which is enough since `pos` strictly decreases.  The bound
checks in the guard mirror Python's implicit in-range indexing: at every
call site `pos < heap.length` holds throughout the loop. -/
def siftdownFuel {α : Type} : Nat → Entry α → List (Entry α) → Nat → Nat → List (Entry α)
  | 0, newitem, heap, _, pos => heap.set pos newitem
  | fuel + 1, newitem, heap, startpos, pos =>
    if h : startpos < pos ∧ pos < heap.length then
      let parentpos := parentIdx pos
      let parent := heap.get ⟨parentpos, by
        have : parentIdx pos < pos := Nat.lt_of_le_of_lt (Nat.div_le_self _ 2) (by omega)
        omega⟩
      if entryLtB newitem parent then
        siftdownFuel fuel newitem (heap.set pos parent) startpos parentpos
      else
        heap.set pos newitem
    else
      heap.set pos newitem

/-- The child-index selection of `heapq._siftup`: `childpos = 2*pos+1`,
then `if rightpos < endpos and not heap[childpos] < heap[rightpos]:
childpos = rightpos` — the smaller of the two children (the left one on a
tie or when the right does not exist). -/
def smallerChild {α : Type} (heap : List (Entry α)) (pos : Nat)
    (h : 2 * pos + 1 < heap.length) : Fin heap.length :=
  if h2 : 2 * pos + 2 < heap.length then
    if entryLtB (heap.get ⟨2 * pos + 1, h⟩) (heap.get ⟨2 * pos + 2, h2⟩) then
      ⟨2 * pos + 1, h⟩
    else
      ⟨2 * pos + 2, h2⟩
  else
    ⟨2 * pos + 1, h⟩

/-- The descending loop of `heapq._siftup(heap, pos)`: repeatedly move the
smaller child up into `pos` until `pos` has no children, returning the
final array and hole position.  Call sites pass fuel `heap.length`, which
suffices since `pos` strictly increases and stays below the length. -/
def siftupLoopFuel {α : Type} : Nat → List (Entry α) → Nat → List (Entry α) × Nat
  | 0, heap, pos => (heap, pos)
  | fuel + 1, heap, pos =>
    if h : 2 * pos + 1 < heap.length then
      siftupLoopFuel fuel (heap.set pos (heap.get (smallerChild heap pos h)))
        (smallerChild heap pos h).val
    else
      (heap, pos)

/-- `heapq._siftup(heap, pos)`: save `newitem = heap[pos]`, walk the hole
down to a leaf along smaller children, drop `newitem` into the leaf and
bubble it back up with `_siftdown(heap, pos, leafpos)`.  `pos` is in range
at every Python call site; the out-of-range branch is unreachable there. -/
def siftup {α : Type} (heap : List (Entry α)) (pos : Nat) : List (Entry α) :=
  if h : pos < heap.length then
    let newitem := heap.get ⟨pos, h⟩
    let lp := siftupLoopFuel heap.length heap pos
    siftdownFuel (lp.2 + 1) newitem (lp.1.set lp.2 newitem) pos lp.2
  else
    heap

/-- `heapq.heappush(heap, item)`: append, then sift the new last element up
towards the root. -/
def heappush {α : Type} (heap : List (Entry α)) (item : Entry α) : List (Entry α) :=
  siftdownFuel (heap.length + 1) item (heap ++ [item]) 0 heap.length

/-- `heapq.heappop(heap)`: pop the Python list's last element; if elements
remain, return the root, move the last element there and sift it down.
The `IndexError` on an empty heap is modelled as `none`. -/
def heappop {α : Type} (heap : List (Entry α)) : Option (Entry α × List (Entry α)) :=
  match heap.getLast? with
  | none => none
  | some lastelt =>
    match heap.dropLast with
    | [] => some (lastelt, [])
    | r :: rs => some (r, siftup ((r :: rs).set 0 lastelt) 0)

/-- The loop of `heapq.heapify(x)`: `for i in reversed(range(n//2)): _siftup(x, i)`;
`heapifyLoop k` processes indices `k-1, k-2, ..., 0`. -/
def heapifyLoop {α : Type} : Nat → List (Entry α) → List (Entry α)
  | 0, heap => heap
  | i + 1, heap => heapifyLoop i (siftup heap i)

/-- `heapq.heapify(x)`: establish the heap invariant in place. -/
def heapify {α : Type} (heap : List (Entry α)) : List (Entry α) :=
  heapifyLoop (heap.length / 2) heap

/-! ### The constructor seed argument

The Python constructors take `initial_queue` which may be absent (`None`),
a `list`, or a value of any other type; `Seed` enumerates the three cases
the `isinstance` checks distinguish. -/

inductive Seed (α : Type) : Type where
  | none : Seed α
  | list : List α → Seed α
  | other : Seed α

/-! ### FIFOQueue -/

structure FIFOQueue (α : Type) where
  data : List α
deriving DecidableEq

namespace FIFOQueue

/-- `FIFOQueue.__init__`: `None` gives an empty queue, a list is copied,
anything else raises `TypeError` (the spec's `InvalidArgument`). -/
def init {α : Type} (s : Seed α) : Except String (FIFOQueue α) :=
  match s with
  | .none => .ok ⟨[]⟩
  | .list l => .ok ⟨l⟩
  | .other => .error "Argument init_queue must be of type list."

/-- `push`: `self._data.insert(0, element)`. -/
def push {α : Type} (q : FIFOQueue α) (element : α) : FIFOQueue α :=
  ⟨element :: q.data⟩

/-- `pop`: `self._data.pop()` removes and returns the Python list's last
element (the earliest pushed); `IndexError` on empty is `none`. -/
def pop {α : Type} (q : FIFOQueue α) : Option (α × FIFOQueue α) :=
  match q.data.getLast? with
  | none => none
  | some x => some (x, ⟨q.data.dropLast⟩)

/-- `top`: `self._data[-1]`; `IndexError` on empty is `none`. -/
def top {α : Type} (q : FIFOQueue α) : Option α :=
  q.data.getLast?

/-- `is_empty`: `len(self._data) == 0`. -/
def is_empty {α : Type} (q : FIFOQueue α) : Bool :=
  q.data.length == 0

/-- `has_element(element, key)`: linear scan comparing `key(elem)` against
the target. -/
def has_element {α β : Type} [DecidableEq β] (q : FIFOQueue α) (element : β)
    (key : α → β) : Bool :=
  q.data.any (fun e => key e == element)

end FIFOQueue

/-! ### LIFOQueue -/

structure LIFOQueue (α : Type) where
  data : List α
deriving DecidableEq

namespace LIFOQueue

/-- `LIFOQueue.__init__`: same validation as FIFO. -/
def init {α : Type} (s : Seed α) : Except String (LIFOQueue α) :=
  match s with
  | .none => .ok ⟨[]⟩
  | .list l => .ok ⟨l⟩
  | .other => .error "Argument init_queue must be of type list."

/-- `push`: `self._data.append(element)`. -/
def push {α : Type} (q : LIFOQueue α) (element : α) : LIFOQueue α :=
  ⟨q.data ++ [element]⟩

/-- `pop`: `self._data.pop()` (most recently pushed). -/
def pop {α : Type} (q : LIFOQueue α) : Option (α × LIFOQueue α) :=
  match q.data.getLast? with
  | none => none
  | some x => some (x, ⟨q.data.dropLast⟩)

/-- `top`: `self._data[-1]`. -/
def top {α : Type} (q : LIFOQueue α) : Option α :=
  q.data.getLast?

/-- `is_empty`: `len(self._data) == 0`. -/
def is_empty {α : Type} (q : LIFOQueue α) : Bool :=
  q.data.length == 0

/-- `has_element(element, key)`: linear scan. -/
def has_element {α β : Type} [DecidableEq β] (q : LIFOQueue α) (element : β)
    (key : α → β) : Bool :=
  q.data.any (fun e => key e == element)

end LIFOQueue

/-! ### PriorityQueue -/

structure PriorityQueue (α : Type) where
  counter : Nat
  data : List (Entry α)
deriving DecidableEq

namespace PriorityQueue

/-- `push(element, priority)`: push `(priority, self._counter, element)`
onto the heap and bump the counter. -/
def push {α : Type} (q : PriorityQueue α) (element : α) (priority : Int) :
    PriorityQueue α :=
  { counter := q.counter + 1
    data := heappush q.data ⟨priority, q.counter, element⟩ }

/-- `PriorityQueue.__init__`: counter 0, empty heap; a list seed has its
`(element, priority)` pairs pushed one by one.  Note there is no `else`
raise: a seed of any non-list type is silently skipped, so this
constructor never fails (hence the unconditional `.ok`). -/
def init {α : Type} (s : Seed (α × Int)) : Except String (PriorityQueue α) :=
  match s with
  | .list l => .ok (l.foldl (fun q p => q.push p.1 p.2) ⟨0, []⟩)
  | _ => .ok ⟨0, []⟩

/-- `pop()` (with the default `return_priority=False`): `heapq.heappop`,
returning the element; `IndexError` on empty is `none`. -/
def pop {α : Type} (q : PriorityQueue α) : Option (α × PriorityQueue α) :=
  (heappop q.data).map (fun p => (p.1.elem, { q with data := p.2 }))

/-- `has_element(element, key)`: linear scan over the stored entries,
comparing `key(elem)` of each entry's element against the target. -/
def has_element {α β : Type} [DecidableEq β] (q : PriorityQueue α) (element : β)
    (key : α → β) : Bool :=
  q.data.any (fun ent => key ent.elem == element)

/-- The scan of `update`: index and entry of the first stored entry whose
element equals the argument, in heap-array order (Python's
`enumerate(self._data)`). -/
def findFirstIdx {α : Type} [DecidableEq α] : List (Entry α) → α → Option (Nat × Entry α)
  | [], _ => none
  | ent :: rest, element =>
    if ent.elem = element then
      some (0, ent)
    else
      (findFirstIdx rest element).map (fun p => (p.1 + 1, p.2))

/-- `update(element, priority)`: scan for the first entry matching
`element`; if its priority is `<=` the new one, do nothing; otherwise
delete it, append `(priority, count, element)` with the original counter
and re-`heapify`; if no entry matches, push afresh. -/
def update {α : Type} [DecidableEq α] (q : PriorityQueue α) (element : α)
    (priority : Int) : PriorityQueue α :=
  match findFirstIdx q.data element with
  | some (index, ent) =>
    if ent.prio ≤ priority then
      q
    else
      { q with data := heapify ((q.data.eraseIdx index) ++ [⟨priority, ent.count, element⟩]) }
  | none => q.push element priority

/-- `is_empty`: `len(self._data) == 0`. -/
def is_empty {α : Type} (q : PriorityQueue α) : Bool :=
  q.data.length == 0

end PriorityQueue

/-- Drive a priority queue from empty through a list of
`(element, priority)` pushes, with no interleaved pops (the scenario of
the spec's ordering properties). -/
def buildPQ {α : Type} (pushes : List (α × Int)) : PriorityQueue α :=
  pushes.foldl (fun q p => q.push p.1 p.2) ⟨0, []⟩

/-- Pop a priority queue `n` times, collecting the returned elements (the
drain stops early on an empty queue). -/
def popListPQ {α : Type} : Nat → PriorityQueue α → List α
  | 0, _ => []
  | n + 1, q =>
    match q.pop with
    | none => []
    | some (e, q') => e :: popListPQ n q'

/-! ### Node (`alds/data_structures/node.py`)

`state : Any`, `action : Any = None`, `parent : Node = None`,
`path_cost : float = 0`, `depth : int = 0`.  The action is `Option β`
(`None` for the root) and the parent an `Option` of the parent node. -/

inductive Node (σ β : Type) : Type where
  | mk (state : σ) (action : Option β) (parent : Option (Node σ β))
      (path_cost : Int) (depth : Nat)

namespace Node

def state {σ β : Type} : Node σ β → σ
  | .mk s _ _ _ _ => s

def action {σ β : Type} : Node σ β → Option β
  | .mk _ a _ _ _ => a

def parent {σ β : Type} : Node σ β → Option (Node σ β)
  | .mk _ _ p _ _ => p

def path_cost {σ β : Type} : Node σ β → Int
  | .mk _ _ _ pc _ => pc

def depth {σ β : Type} : Node σ β → Nat
  | .mk _ _ _ _ d => d

/-- `expand(successors_func)`: for each `(state, action, step_cost)` tuple
produced by `successors_func(self.state)` — this is the unpacking order the
Python `for` loop uses — yield a child node with that state and action,
`parent=self`, `path_cost=step_cost+self.path_cost`, `depth=self.depth+1`.
The generator is modelled as the list of the children it yields, in
order. -/
def expand {σ β : Type} (n : Node σ β) (successors_func : σ → List (σ × β × Int)) :
    List (Node σ β) :=
  (successors_func n.state).map (fun t =>
    Node.mk t.1 (some t.2.1) (some n) (t.2.2 + n.path_cost) (n.depth + 1))

/-- The loop of `_path_finder_` for `path_type == "action"`:
`for i in range(path_length): path[-i] = current_node.action; current_node = current_node.parent`
with `path_length = self.depth`.  Python's `path[-i]` on an array of
length `d` is index `0` for `i = 0` and `d - i` for `i >= 1`, i.e.
`(d - i) % d`.  Reading `.action`/`.parent` off `None` (a chain shorter
than `depth`) raises `AttributeError`, modelled as `none`.  The first
argument counts the remaining iterations (`d - i`), making the recursion
structural; the loop body is Python's verbatim. -/
def pfaLoop {σ β : Type} (d : Nat) :
    Nat → Option (Node σ β) → Nat → List (Option β) → Option (List (Option β))
  | 0, _, _, path => some path
  | rem + 1, current, i, path =>
    match current with
    | none => none
    | some c => pfaLoop d rem c.parent (i + 1) (path.set ((d - i) % d) c.action)

/-- `Node.path` (the spec's `path_actions`): run the action branch of
`_path_finder_` on a fresh array of length `depth` (`np.empty` slots are
modelled as `none` placeholders; the loop overwrites every slot). -/
def path {σ β : Type} (n : Node σ β) : Option (List (Option β)) :=
  pfaLoop n.depth n.depth (some n) 0 (List.replicate n.depth none)

/-- The loop of `_path_finder_` for `path_type == "node"`:
`for i in range(1, path_length+1): path[-i] = current_node; current_node = current_node.parent`
with `path_length = self.depth + 1`; `path[-i]` is index `path_length - i`.
The first argument counts the remaining iterations (`path_length - i + 1`). -/
def pfnLoop {σ β : Type} (dp1 : Nat) :
    Nat → Option (Node σ β) → Nat → List (Option (Node σ β)) →
      Option (List (Option (Node σ β)))
  | 0, _, _, path => some path
  | rem + 1, current, i, path =>
    match current with
    | none => none
    | some c => pfnLoop dp1 rem c.parent (i + 1) (path.set (dp1 - i) (some c))

/-- `Node.node_path` (the spec's `path_states`): run the node branch of
`_path_finder_` on a fresh array of length `depth + 1`. -/
def node_path {σ β : Type} (n : Node σ β) :
    Option (List (Option (Node σ β))) :=
  pfnLoop (n.depth + 1) (n.depth + 1) (some n) 1 (List.replicate (n.depth + 1) none)

end Node

/-! ### SearchProblem (`alds/search/abc.py`) -/

structure SearchProblem (σ β : Type) where
  init_state : σ
  is_goal_state : σ → Bool
  actions : σ → List β
  result : σ → β → σ
  cost_action : σ → β → σ → Int
  heuristic : σ → Int

/-- The derived default `successors(state)`: for each action in
`actions(state)` (in that order) compute the successor state and the step
cost, and yield the triple `(action, successor_state, cost)` — this is the
order the Python `yield` statement actually produces, with the action
first. -/
def SearchProblem.successors {σ β : Type} (p : SearchProblem σ β) (state : σ) :
    List (β × σ × Int) :=
  (p.actions state).map (fun action =>
    (action, p.result state action,
      p.cost_action state action (p.result state action)))

/-! ### Parent chains built by expansion -/

/-- The nodes a parent-chain walk from `n` visits, in root-to-`n` order. -/
def ancestors {σ β : Type} : Node σ β → List (Node σ β)
  | .mk s a none pc d => [.mk s a none pc d]
  | .mk s a (some p) pc d => ancestors p ++ [.mk s a (some p) pc d]

/-- The root of the parent chain of `n`. -/
def chainRoot {σ β : Type} : Node σ β → Node σ β
  | .mk s a none pc d => .mk s a none pc d
  | .mk _ _ (some p) _ _ => chainRoot p

/-- A node whose parent chain was built by repeated expansion from an
explicitly constructed root `Node(state)` (all other fields defaulted). -/
inductive WellFormed {σ β : Type} : Node σ β → Prop where
  | root (s : σ) : WellFormed (Node.mk s none none 0 0)
  | child (par : Node σ β) (sf : σ → List (σ × β × Int)) (c : Node σ β) :
      WellFormed par → c ∈ par.expand sf → WellFormed c

/-- The entries `push` creates for a sequence of `(element, priority)`
pushes starting at a given counter value. -/
def entriesFrom {α : Type} : Nat → List (α × Int) → List (Entry α)
  | _, [] => []
  | c, ep :: rest => ⟨ep.2, c, ep.1⟩ :: entriesFrom (c + 1) rest

/-- Drive a FIFO queue through a sequence of pushes from empty. -/
def buildFIFO {α : Type} (es : List α) : FIFOQueue α :=
  es.foldl FIFOQueue.push ⟨[]⟩

/-- Pop a FIFO queue `n` times, collecting the returned elements. -/
def drainFIFO {α : Type} : Nat → FIFOQueue α → List α
  | 0, _ => []
  | n + 1, q =>
    match q.pop with
    | none => []
    | some (e, q') => e :: drainFIFO n q'

/-- Drive a LIFO queue through a sequence of pushes from empty. -/
def buildLIFO {α : Type} (es : List α) : LIFOQueue α :=
  es.foldl LIFOQueue.push ⟨[]⟩

/-- A concrete search problem over integer states and integer actions,
used to exercise `Node.expand` composed with `SearchProblem.successors`:
from state `0` the single legal action is `5`, and taking action `a` in
state `s` leads to state `s + a + 100` at cost `1`. -/
def swapProblem : SearchProblem Int Int :=
  { init_state := 0
    is_goal_state := fun _ => false
    actions := fun s => if s = 0 then [5] else []
    result := fun s a => s + a + 100
    cost_action := fun _ _ _ => 1
    heuristic := fun _ => 0 }

/-- The root node `Node(0)` (all other fields defaulted, as in the
Python constructor). -/
def rootNodeZero : Node Int Int := Node.mk 0 none none 0 0

/-- A successor function in `Node.expand`'s own calling convention
(`(state, action, step_cost)` triples): from state `s`, one successor
with state `s + 1`, action `10*s + 10`, step cost `1`. -/
def sfChain : Int → List (Int × Int × Int) := fun s => [(s + 1, 10 * s + 10, 1)]

/-- The depth-1, depth-2 and depth-3 nodes of the chain obtained by
repeatedly expanding `rootNodeZero` with `sfChain`. -/
def chainN1 : Node Int Int := Node.mk 1 (some 10) (some rootNodeZero) 1 1

def chainN2 : Node Int Int := Node.mk 2 (some 20) (some chainN1) 2 2

def chainN3 : Node Int Int := Node.mk 3 (some 30) (some chainN2) 3 3


/-- The heap invariant of `heapq`: every non-root slot compares
not-less-than its parent slot under the tuple order. -/
def IsHeap {α : Type} (l : List (Entry α)) : Prop :=
  ∀ j (hj : j < l.length) (h0 : 0 < j),
    entryLtB (l.get ⟨j, hj⟩)
      (l.get ⟨parentIdx j, Nat.lt_trans (Nat.lt_of_le_of_lt (Nat.div_le_self _ 2)
        (Nat.sub_lt h0 Nat.one_pos)) hj⟩) = false

/-- `j` lies in the subtree rooted at `s` (in the `heapq` array indexing,
where the parent of `j > 0` is `(j-1)/2`). -/
inductive InSubtree (s : Nat) : Nat → Prop where
  | refl : InSubtree s s
  | step {j : Nat} : 0 < j → InSubtree s (parentIdx j) → InSubtree s j

/-! ## Lemmas

### Entry-order arithmetic -/

theorem entryLtB_true_iff {α : Type} (a b : Entry α) :
    entryLtB a b = true ↔ (a.prio < b.prio ∨ (a.prio = b.prio ∧ a.count < b.count)) := by
  simp [entryLtB]

theorem entryLtB_false_iff {α : Type} (a b : Entry α) :
    entryLtB a b = false ↔ keyLe b a := by
  rw [← Bool.not_eq_true, entryLtB_true_iff]
  unfold keyLe
  omega

theorem keyLe_refl {α : Type} (a : Entry α) : keyLe a a := by
  unfold keyLe
  omega

theorem keyLe_trans {α : Type} {a b c : Entry α} (h1 : keyLe a b) (h2 : keyLe b c) :
    keyLe a c := by
  unfold keyLe at *
  omega

theorem keyLe_of_entryLtB {α : Type} {a b : Entry α} (h : entryLtB a b = true) :
    keyLe a b := by
  rw [entryLtB_true_iff] at h
  unfold keyLe
  omega

/-! ### Tree-index arithmetic -/

theorem parentIdx_lt {j : Nat} (h : 0 < j) : parentIdx j < j := by
  unfold parentIdx
  omega

theorem parentIdx_child_left (i : Nat) : parentIdx (2 * i + 1) = i := by
  unfold parentIdx
  omega

theorem parentIdx_child_right (i : Nat) : parentIdx (2 * i + 2) = i := by
  unfold parentIdx
  omega

theorem child_of_parentIdx {i j : Nat} (h0 : 0 < j) (h : parentIdx j = i) :
    j = 2 * i + 1 ∨ j = 2 * i + 2 := by
  unfold parentIdx at h
  omega

theorem InSubtree.start_le {s j : Nat} (h : InSubtree s j) : s ≤ j := by
  induction h with
  | refl => exact Nat.le_refl s
  | step h0 _ ih => exact Nat.le_trans ih (Nat.le_of_lt (parentIdx_lt h0))

theorem InSubtree.zero (j : Nat) : InSubtree 0 j := by
  induction j using Nat.strong_induction_on with
  | _ j ih =>
    cases Nat.eq_zero_or_pos j with
    | inl h => exact h ▸ InSubtree.refl
    | inr h => exact InSubtree.step h (ih _ (parentIdx_lt h))

theorem InSubtree.up {s j : Nat} (h : InSubtree s j) (hne : j ≠ s) :
    0 < j ∧ InSubtree s (parentIdx j) := by
  cases h with
  | refl => exact absurd rfl hne
  | step h0 h1 => exact ⟨h0, h1⟩

theorem InSubtree.child {s j c : Nat} (h : InSubtree s j) (hc : parentIdx c = j)
    (h0 : 0 < c) : InSubtree s c :=
  InSubtree.step h0 (hc ▸ h)

/-! ### List and multiset helpers -/

theorem ms_snoc {γ : Type} (s : Multiset γ) (x : γ) : s + {x} = x ::ₘ s := by
  rw [add_comm, Multiset.singleton_add]

theorem drop_set_eq {γ : Type} (l : List γ) (i : Nat) (a : γ) (h : i < l.length) :
    (l.set i a).drop i = a :: l.drop (i + 1) := by
  induction l generalizing i with
  | nil => simp at h
  | cons b t ih =>
    cases i with
    | zero => simp
    | succ n =>
      simp only [List.set_cons_succ, List.drop_succ_cons]
      exact ih n (by simpa using h)

theorem ms_eraseIdx {γ : Type} (l : List γ) (i : Nat) (h : i < l.length) :
    ((l.eraseIdx i : List γ) : Multiset γ) + {l.get ⟨i, h⟩} = (l : Multiset γ) := by
  induction l generalizing i with
  | nil => simp at h
  | cons a t ih =>
    cases i with
    | zero => simp [ms_snoc, Multiset.cons_swap]
    | succ n =>
      simp only [List.eraseIdx_cons_succ, List.get, ← Multiset.cons_coe, ms_snoc]
      rw [Multiset.cons_swap]
      congr 1
      rw [← ms_snoc, ih n (by simpa using h)]

theorem ms_set {γ : Type} (l : List γ) (i : Nat) (x : γ) (h : i < l.length) :
    ((l.set i x : List γ) : Multiset γ) + {l.get ⟨i, h⟩} = (l : Multiset γ) + {x} := by
  induction l generalizing i with
  | nil => simp at h
  | cons a t ih =>
    cases i with
    | zero =>
      simp only [List.set_cons_zero, List.get, ← Multiset.cons_coe]
      rw [ms_snoc, ms_snoc, Multiset.cons_swap]
    | succ n =>
      simp only [List.set_cons_succ, List.get, ← Multiset.cons_coe, Multiset.cons_add]
      rw [ih n (by simpa using h)]

theorem getD_eq_get {γ : Type} (l : List γ) (i : Nat) (d : γ) (h : i < l.length) :
    l.getD i d = l.get ⟨i, h⟩ := by
  induction l generalizing i with
  | nil => simp at h
  | cons a t ih =>
    cases i with
    | zero => rfl
    | succ n => exact ih n (by simpa using h)

theorem getD_set_self {γ : Type} (l : List γ) (i : Nat) (x d : γ) (h : i < l.length) :
    (l.set i x).getD i d = x := by
  induction l generalizing i with
  | nil => simp at h
  | cons a t ih =>
    cases i with
    | zero => rfl
    | succ n => exact ih n (by simpa using h)

theorem getD_set_ne {γ : Type} (l : List γ) (i j : Nat) (x d : γ) (hne : i ≠ j) :
    (l.set i x).getD j d = l.getD j d := by
  induction l generalizing i j with
  | nil => rfl
  | cons a t ih =>
    cases i with
    | zero =>
      cases j with
      | zero => exact absurd rfl hne
      | succ m => rfl
    | succ n =>
      cases j with
      | zero => rfl
      | succ m => exact ih n m (by omega)

theorem entryLtB_asymm {α : Type} {a b : Entry α} (h : entryLtB a b = true) :
    entryLtB b a = false := by
  rw [entryLtB_true_iff] at h
  rw [entryLtB_false_iff]
  unfold keyLe
  omega

theorem siftdownFuel_step_eq {α : Type} (fuel : Nat) (newitem : Entry α)
    (heap : List (Entry α)) (startpos pos : Nat) (h1 : startpos < pos)
    (h2 : pos < heap.length) (hp : parentIdx pos < heap.length)
    (hlt : entryLtB newitem (heap.get ⟨parentIdx pos, hp⟩) = true) :
    siftdownFuel (fuel + 1) newitem heap startpos pos
      = siftdownFuel fuel newitem (heap.set pos (heap.get ⟨parentIdx pos, hp⟩))
          startpos (parentIdx pos) := by
  simp only [siftdownFuel]
  rw [dif_pos ⟨h1, h2⟩, if_pos hlt]

theorem siftdownFuel_stop_eq {α : Type} (fuel : Nat) (newitem : Entry α)
    (heap : List (Entry α)) (startpos pos : Nat) (h1 : startpos < pos)
    (h2 : pos < heap.length) (hp : parentIdx pos < heap.length)
    (hlt : entryLtB newitem (heap.get ⟨parentIdx pos, hp⟩) = false) :
    siftdownFuel (fuel + 1) newitem heap startpos pos = heap.set pos newitem := by
  simp only [siftdownFuel]
  rw [dif_pos ⟨h1, h2⟩, if_neg (by simp only [List.get_eq_getElem] at hlt; simp [hlt])]

theorem siftdownFuel_term_eq {α : Type} (fuel : Nat) (newitem : Entry α)
    (heap : List (Entry α)) (startpos pos : Nat)
    (h : ¬(startpos < pos ∧ pos < heap.length)) :
    siftdownFuel (fuel + 1) newitem heap startpos pos = heap.set pos newitem := by
  simp only [siftdownFuel]
  rw [dif_neg h]



theorem siftdownFuel_spec {α : Type} :
    ∀ (fuel : Nat) (heap : List (Entry α)) (startpos pos : Nat) (newitem : Entry α),
      pos < heap.length → pos < fuel → InSubtree startpos pos →
      (∀ j, j < heap.length → 0 < j → InSubtree startpos j → j ≠ startpos → j ≠ pos →
        entryLtB ((heap.set pos newitem).getD j newitem)
          ((heap.set pos newitem).getD (parentIdx j) newitem) = false) →
      (startpos < pos → ∀ j, j < heap.length → parentIdx j = pos →
        entryLtB ((heap.set pos newitem).getD j newitem)
          ((heap.set pos newitem).getD (parentIdx pos) newitem) = false) →
      (∀ j, j < heap.length → 0 < j → InSubtree startpos j → j ≠ startpos →
        entryLtB ((siftdownFuel fuel newitem heap startpos pos).getD j newitem)
          ((siftdownFuel fuel newitem heap startpos pos).getD (parentIdx j) newitem) = false)
      ∧ ∀ k, ¬ InSubtree startpos k →
          (siftdownFuel fuel newitem heap startpos pos).getD k newitem
            = heap.getD k newitem := by
  intro fuel
  induction fuel with
  | zero =>
    intro heap startpos pos newitem hlen hfuel hsub ha hb
    omega
  | succ fuel ih =>
    intro heap startpos pos newitem hlen hfuel hsub ha hb
    by_cases hstep : startpos < pos
    · have hp : parentIdx pos < heap.length :=
        Nat.lt_trans (parentIdx_lt (by omega)) hlen
      have hpplt : parentIdx pos < pos := parentIdx_lt (by omega)
      have hppne : parentIdx pos ≠ pos := by omega
      have hvpp : (heap.set pos newitem).getD (parentIdx pos) newitem
          = heap.get ⟨parentIdx pos, hp⟩ := by
        rw [getD_set_ne _ _ _ _ _ (by omega), getD_eq_get _ _ _ hp]
      by_cases hlt : entryLtB newitem (heap.get ⟨parentIdx pos, hp⟩) = true
      · -- bubble step: move the parent down and recurse at the parent slot
        rw [siftdownFuel_step_eq fuel newitem heap startpos pos hstep hlen hp hlt]
        have hsub' : InSubtree startpos (parentIdx pos) := (hsub.up (by omega)).2
        have hlen2 : (heap.set pos (heap.get ⟨parentIdx pos, hp⟩)).length = heap.length := by
          simp [List.length_set]
        have hvk : ∀ k,
            ((heap.set pos (heap.get ⟨parentIdx pos, hp⟩)).set (parentIdx pos) newitem).getD
                k newitem
              = if k = parentIdx pos then newitem
                else if k = pos then heap.get ⟨parentIdx pos, hp⟩
                else (heap.set pos newitem).getD k newitem := by
          intro k
          by_cases h1 : k = parentIdx pos
          · subst h1
            rw [if_pos rfl, getD_set_self _ _ _ _ (by omega)]
          · rw [if_neg h1, getD_set_ne _ _ _ _ _ (fun he => h1 he.symm)]
            by_cases h2 : k = pos
            · subst h2
              rw [if_pos rfl, getD_set_self _ _ _ _ hlen]
            · rw [if_neg h2, getD_set_ne _ _ _ _ _ (fun he => h2 he.symm),
                getD_set_ne _ _ _ _ _ (fun he => h2 he.symm)]
        have hvPP : ((heap.set pos (heap.get ⟨parentIdx pos, hp⟩)).set (parentIdx pos)
            newitem).getD (parentIdx pos) newitem = newitem := by
          rw [hvk (parentIdx pos), if_pos rfl]
        have hvPos : ((heap.set pos (heap.get ⟨parentIdx pos, hp⟩)).set (parentIdx pos)
            newitem).getD pos newitem = heap.get ⟨parentIdx pos, hp⟩ := by
          rw [hvk pos, if_neg (fun he => hppne he.symm), if_pos rfl]
        have hvJ : ∀ k, k ≠ parentIdx pos → k ≠ pos →
            ((heap.set pos (heap.get ⟨parentIdx pos, hp⟩)).set (parentIdx pos)
              newitem).getD k newitem = (heap.set pos newitem).getD k newitem := by
          intro k hk1 hk2
          rw [hvk k, if_neg hk1, if_neg hk2]
        have main := ih (heap.set pos (heap.get ⟨parentIdx pos, hp⟩)) startpos
          (parentIdx pos) newitem (by rw [hlen2]; exact hp) (by omega) hsub' ?_ ?_
        · refine ⟨fun j hj h0 hjsub hjs =>
            main.1 j (by rw [hlen2]; exact hj) h0 hjsub hjs, fun k hk => ?_⟩
          rw [main.2 k hk,
            getD_set_ne _ _ _ _ _ (fun he => hk (by rw [he] at hsub; exact hsub))]
        · -- the (a) precondition for the recursive call
          intro j hj h0 hjsub hjs hjpp
          rw [hlen2] at hj
          by_cases hjpos : j = pos
          · rw [hjpos, hvPos, hvPP]
            exact entryLtB_asymm hlt
          · rw [hvJ j hjpp hjpos]
            by_cases hpj1 : parentIdx j = parentIdx pos
            · rw [hpj1, hvPP]
              have e1 := ha j hj h0 hjsub hjs hjpos
              rw [hpj1, hvpp] at e1
              rw [entryLtB_false_iff] at e1 ⊢
              exact keyLe_trans (keyLe_of_entryLtB hlt) e1
            · by_cases hpj2 : parentIdx j = pos
              · rw [hpj2, hvPos]
                have e1 := hb hstep j hj hpj2
                rw [hvpp] at e1
                exact e1
              · rw [hvJ (parentIdx j) hpj1 hpj2]
                exact ha j hj h0 hjsub hjs hjpos
        · -- the (b) precondition for the recursive call
          intro hsp j hj hpj
          rw [hlen2] at hj
          have h0pp : 0 < parentIdx pos := by omega
          have h0j : 0 < j := by
            rcases Nat.eq_zero_or_pos j with h | h
            · exfalso
              rw [h] at hpj
              have hz : parentIdx 0 = 0 := rfl
              rw [hz] at hpj
              omega
            · exact h
          have hjgt : parentIdx pos < j := by
            rcases child_of_parentIdx h0j hpj with h | h <;> omega
          have hgpp : parentIdx (parentIdx pos) < parentIdx pos := parentIdx_lt h0pp
          have hvG : ((heap.set pos (heap.get ⟨parentIdx pos, hp⟩)).set (parentIdx pos)
              newitem).getD (parentIdx (parentIdx pos)) newitem
              = (heap.set pos newitem).getD (parentIdx (parentIdx pos)) newitem :=
            hvJ (parentIdx (parentIdx pos)) (by omega) (by omega)
          have epp := ha (parentIdx pos) (by omega) h0pp hsub' (by omega) hppne
          rw [hvpp] at epp
          by_cases hjpos : j = pos
          · rw [hjpos, hvPos, hvG]
            exact epp
          · rw [hvJ j (by omega) hjpos, hvG]
            have ej := ha j hj h0j (hsub'.child hpj h0j) (by omega) hjpos
            rw [hpj, hvpp] at ej
            rw [entryLtB_false_iff] at epp ej ⊢
            exact keyLe_trans epp ej
      · -- comparison says stop: drop the new item into the hole
        have hlt' : entryLtB newitem (heap.get ⟨parentIdx pos, hp⟩) = false := by
          revert hlt
          cases entryLtB newitem (heap.get ⟨parentIdx pos, hp⟩) <;> simp
        rw [siftdownFuel_stop_eq fuel newitem heap startpos pos hstep hlen hp hlt']
        constructor
        · intro j hj h0 hjsub hjs
          by_cases hjp : j = pos
          · rw [hjp, getD_set_self _ _ _ _ hlen, hvpp]
            exact hlt'
          · exact ha j hj h0 hjsub hjs hjp
        · intro k hk
          exact getD_set_ne _ _ _ _ _ (fun he => hk (by rw [he] at hsub; exact hsub))
    · -- the hole reached startpos: store and stop
      have hpos : pos = startpos :=
        Nat.le_antisymm (Nat.not_lt.mp hstep) hsub.start_le
      rw [siftdownFuel_term_eq fuel newitem heap startpos pos (fun hc => hstep hc.1)]
      constructor
      · intro j hj h0 hjsub hjs
        exact ha j hj h0 hjsub hjs (by omega)
      · intro k hk
        exact getD_set_ne _ _ _ _ _ (fun he => hk (by rw [he] at hsub; exact hsub))



theorem ms_cancel {γ : Type} {s t : Multiset γ} (x : γ) (h : s + {x} = t + {x}) :
    s = t :=
  add_right_cancel h

theorem siftdownFuel_length {α : Type} :
    ∀ (fuel : Nat) (newitem : Entry α) (heap : List (Entry α)) (startpos pos : Nat),
      (siftdownFuel fuel newitem heap startpos pos).length = heap.length := by
  intro fuel
  induction fuel with
  | zero =>
    intro newitem heap startpos pos
    simp [siftdownFuel]
  | succ fuel ih =>
    intro newitem heap startpos pos
    simp only [siftdownFuel]
    by_cases hc : startpos < pos ∧ pos < heap.length
    · rw [dif_pos hc]
      by_cases hlt : entryLtB newitem (heap.get ⟨parentIdx pos, by
          have := parentIdx_lt (show 0 < pos by omega)
          omega⟩) = true
      · rw [if_pos (by simpa [List.get_eq_getElem] using hlt)]
        rw [ih]
        simp
      · rw [if_neg (by simpa [List.get_eq_getElem] using hlt)]
        simp
    · rw [dif_neg hc]
      simp

theorem get_concat_length {γ : Type} (l : List γ) (x : γ)
    (h : l.length < (l ++ [x]).length) : (l ++ [x]).get ⟨l.length, h⟩ = x := by
  induction l with
  | nil => rfl
  | cons a t ih => exact ih (by simpa using h)

theorem siftdownFuel_ms {α : Type} :
    ∀ (fuel : Nat) (newitem : Entry α) (heap : List (Entry α)) (startpos pos : Nat)
      (h : pos < heap.length),
      ((siftdownFuel fuel newitem heap startpos pos : List (Entry α)) : Multiset (Entry α))
          + {heap.get ⟨pos, h⟩}
        = (heap : Multiset (Entry α)) + {newitem} := by
  intro fuel
  induction fuel with
  | zero =>
    intro newitem heap startpos pos h
    simp only [siftdownFuel]
    exact ms_set heap pos newitem h
  | succ fuel ih =>
    intro newitem heap startpos pos h
    simp only [siftdownFuel]
    by_cases hc : startpos < pos ∧ pos < heap.length
    · rw [dif_pos hc]
      have hp : parentIdx pos < heap.length := by
        have := parentIdx_lt (show 0 < pos by omega)
        omega
      by_cases hlt : entryLtB newitem (heap.get ⟨parentIdx pos, hp⟩) = true
      · rw [if_pos (by simpa [List.get_eq_getElem] using hlt)]
        have hpp : parentIdx pos < (heap.set pos (heap.get ⟨parentIdx pos, hp⟩)).length := by
          simp [List.length_set]
          omega
        have step := ih newitem (heap.set pos (heap.get ⟨parentIdx pos, hp⟩)) startpos
          (parentIdx pos) hpp
        have hppne : parentIdx pos ≠ pos := by
          have := parentIdx_lt (show 0 < pos by omega)
          omega
        have hgv : (heap.set pos (heap.get ⟨parentIdx pos, hp⟩)).get ⟨parentIdx pos, hpp⟩
            = heap.get ⟨parentIdx pos, hp⟩ := by
          rw [← getD_eq_get _ _ newitem hpp, getD_set_ne _ _ _ _ _ (Ne.symm hppne),
            getD_eq_get _ _ _ hp]
        rw [hgv] at step
        have base := ms_set heap pos (heap.get ⟨parentIdx pos, hp⟩) h
        refine ms_cancel (heap.get ⟨parentIdx pos, hp⟩) ?_
        calc ((siftdownFuel fuel newitem (heap.set pos (heap.get ⟨parentIdx pos, hp⟩))
              startpos (parentIdx pos) : List (Entry α)) : Multiset (Entry α))
              + {heap.get ⟨pos, h⟩} + {heap.get ⟨parentIdx pos, hp⟩}
            = ((siftdownFuel fuel newitem (heap.set pos (heap.get ⟨parentIdx pos, hp⟩))
              startpos (parentIdx pos) : List (Entry α)) : Multiset (Entry α))
              + {heap.get ⟨parentIdx pos, hp⟩} + {heap.get ⟨pos, h⟩} := by
              rw [add_right_comm]
          _ = ((heap.set pos (heap.get ⟨parentIdx pos, hp⟩) : List (Entry α)) :
                Multiset (Entry α)) + {newitem} + {heap.get ⟨pos, h⟩} := by rw [step]
          _ = ((heap.set pos (heap.get ⟨parentIdx pos, hp⟩) : List (Entry α)) :
                Multiset (Entry α)) + {heap.get ⟨pos, h⟩} + {newitem} := by
              rw [add_right_comm]
          _ = (heap : Multiset (Entry α)) + {heap.get ⟨parentIdx pos, hp⟩} + {newitem} := by
              rw [base]
          _ = (heap : Multiset (Entry α)) + {newitem} + {heap.get ⟨parentIdx pos, hp⟩} := by
              rw [add_right_comm]
      · rw [if_neg (by simpa [List.get_eq_getElem] using hlt)]
        exact ms_set heap pos newitem h
    · rw [dif_neg hc]
      exact ms_set heap pos newitem h



theorem getD_append_left {γ : Type} (l m : List γ) (i : Nat) (d : γ)
    (h : i < l.length) : (l ++ m).getD i d = l.getD i d := by
  induction l generalizing i with
  | nil => simp at h
  | cons a t ih =>
    cases i with
    | zero => rfl
    | succ n => exact ih n (by simpa using h)

theorem isHeap_getD {α : Type} (l : List (Entry α)) (d : Entry α) (hl : IsHeap l)
    (j : Nat) (hj : j < l.length) (h0 : 0 < j) :
    entryLtB (l.getD j d) (l.getD (parentIdx j) d) = false := by
  rw [getD_eq_get _ _ _ hj,
    getD_eq_get _ _ _ (Nat.lt_trans (parentIdx_lt h0) hj)]
  exact hl j hj h0

theorem isHeap_of_getD {α : Type} (l : List (Entry α)) (d : Entry α)
    (h : ∀ j, j < l.length → 0 < j →
      entryLtB (l.getD j d) (l.getD (parentIdx j) d) = false) :
    IsHeap l := by
  intro j hj h0
  have hh := h j hj h0
  rwa [getD_eq_get _ _ _ hj,
    getD_eq_get _ _ _ (Nat.lt_trans (parentIdx_lt h0) hj)] at hh

theorem isHeap_root_min {α : Type} (l : List (Entry α)) (hl : IsHeap l) :
    ∀ j (hj : j < l.length) (h0 : 0 < l.length),
      keyLe (l.get ⟨0, h0⟩) (l.get ⟨j, hj⟩) := by
  intro j
  induction j using Nat.strong_induction_on with
  | _ j ih =>
    intro hj h0
    rcases Nat.eq_zero_or_pos j with hz | hpos
    · subst hz
      exact keyLe_refl _
    · have hedge := hl j hj hpos
      rw [entryLtB_false_iff] at hedge
      exact keyLe_trans
        (ih (parentIdx j) (parentIdx_lt hpos)
          (Nat.lt_trans (parentIdx_lt hpos) hj) h0) hedge

theorem heappush_length {α : Type} (heap : List (Entry α)) (item : Entry α) :
    (heappush heap item).length = heap.length + 1 := by
  unfold heappush
  rw [siftdownFuel_length]
  simp

theorem heappush_ms {α : Type} (heap : List (Entry α)) (item : Entry α) :
    ((heappush heap item : List (Entry α)) : Multiset (Entry α))
      = (heap : Multiset (Entry α)) + {item} := by
  unfold heappush
  have hlen : heap.length < (heap ++ [item]).length := by simp
  have hms := siftdownFuel_ms (heap.length + 1) item (heap ++ [item]) 0 heap.length hlen
  rw [get_concat_length _ _ hlen] at hms
  have h2 : ((heap ++ [item] : List (Entry α)) : Multiset (Entry α))
      = (heap : Multiset (Entry α)) + {item} := rfl
  rw [h2] at hms
  exact ms_cancel item hms

theorem heappush_isHeap {α : Type} (heap : List (Entry α)) (item : Entry α)
    (hl : IsHeap heap) : IsHeap (heappush heap item) := by
  have hlen : heap.length < (heap ++ [item]).length := by simp
  have spec := siftdownFuel_spec (heap.length + 1) (heap ++ [item]) 0 heap.length item
    hlen (by omega) (InSubtree.zero _) ?_ ?_
  · apply isHeap_of_getD _ item
    intro j hj h0
    unfold heappush at hj ⊢
    rw [siftdownFuel_length] at hj
    exact spec.1 j hj h0 (InSubtree.zero j) (by omega)
  · intro j hj h0 _ hj0 hjlast
    have hjlt : j < heap.length := by
      simp at hj
      omega
    have hplt : parentIdx j < heap.length := Nat.lt_trans (parentIdx_lt h0) hjlt
    rw [getD_set_ne _ _ _ _ _ (fun he => hjlast he.symm),
      getD_set_ne _ _ _ _ _ (by omega),
      getD_append_left _ _ _ _ hjlt, getD_append_left _ _ _ _ hplt]
    exact isHeap_getD heap item hl j hjlt h0
  · intro hpos j hj hpj
    exfalso
    rcases Nat.eq_zero_or_pos j with hz | h0
    · rw [hz] at hpj
      have hz0 : parentIdx 0 = 0 := rfl
      omega
    · have := parentIdx_lt h0
      simp at hj
      omega

theorem entryLtB_irrefl {α : Type} (a : Entry α) : entryLtB a a = false := by
  rw [entryLtB_false_iff]
  exact keyLe_refl a

theorem smallerChild_gt {α : Type} (heap : List (Entry α)) (pos : Nat)
    (h : 2 * pos + 1 < heap.length) : pos < (smallerChild heap pos h).val := by
  unfold smallerChild
  by_cases h2 : 2 * pos + 2 < heap.length
  · rw [dif_pos h2]
    by_cases hlt : entryLtB (heap.get ⟨2 * pos + 1, h⟩) (heap.get ⟨2 * pos + 2, h2⟩) = true
    · rw [if_pos hlt]
      show pos < 2 * pos + 1
      omega
    · rw [if_neg hlt]
      show pos < 2 * pos + 2
      omega
  · rw [dif_neg h2]
    show pos < 2 * pos + 1
    omega

theorem smallerChild_parent {α : Type} (heap : List (Entry α)) (pos : Nat)
    (h : 2 * pos + 1 < heap.length) :
    parentIdx (smallerChild heap pos h).val = pos := by
  unfold smallerChild
  by_cases h2 : 2 * pos + 2 < heap.length
  · rw [dif_pos h2]
    by_cases hlt : entryLtB (heap.get ⟨2 * pos + 1, h⟩) (heap.get ⟨2 * pos + 2, h2⟩) = true
    · rw [if_pos hlt]
      exact parentIdx_child_left pos
    · rw [if_neg hlt]
      exact parentIdx_child_right pos
  · rw [dif_neg h2]
    exact parentIdx_child_left pos

theorem smallerChild_min {α : Type} (heap : List (Entry α)) (pos : Nat)
    (h : 2 * pos + 1 < heap.length) (d : Entry α) :
    ∀ j, j < heap.length → 0 < j → parentIdx j = pos →
      entryLtB (heap.getD j d) (heap.getD (smallerChild heap pos h).val d) = false := by
  intro j hj h0 hpj
  have hgl : heap.getD (2 * pos + 1) d = heap.get ⟨2 * pos + 1, h⟩ := getD_eq_get _ _ _ h
  rcases child_of_parentIdx h0 hpj with hc | hc
  · -- j is the left child
    subst hc
    unfold smallerChild
    by_cases h2 : 2 * pos + 2 < heap.length
    · rw [dif_pos h2]
      by_cases hlt : entryLtB (heap.get ⟨2 * pos + 1, h⟩) (heap.get ⟨2 * pos + 2, h2⟩) = true
      · rw [if_pos hlt]
        rw [hgl]
        exact entryLtB_irrefl _
      · rw [if_neg hlt]
        rw [hgl, getD_eq_get _ _ _ h2]
        revert hlt
        cases entryLtB (heap.get ⟨2 * pos + 1, h⟩) (heap.get ⟨2 * pos + 2, h2⟩) <;> simp
    · rw [dif_neg h2]
      rw [hgl]
      exact entryLtB_irrefl _
  · -- j is the right child
    subst hc
    have h2 : 2 * pos + 2 < heap.length := hj
    unfold smallerChild
    rw [dif_pos h2]
    by_cases hlt : entryLtB (heap.get ⟨2 * pos + 1, h⟩) (heap.get ⟨2 * pos + 2, h2⟩) = true
    · rw [if_pos hlt]
      rw [getD_eq_get _ _ _ h2, hgl]
      exact entryLtB_asymm hlt
    · rw [if_neg hlt]
      rw [getD_eq_get _ _ _ h2]
      exact entryLtB_irrefl _



theorem ms_hole_trans {γ : Type} {A H M S : Multiset γ} {c p x : γ}
    (e1 : A + {c} = H + {x}) (e2 : H + {p} = M + {c}) (e3 : S + {p} = M + {x}) :
    A = S := by
  refine ms_cancel c (ms_cancel p ?_)
  calc A + {c} + {p} = H + {x} + {p} := by rw [e1]
    _ = H + {p} + {x} := by rw [add_right_comm]
    _ = M + {c} + {x} := by rw [e2]
    _ = M + {x} + {c} := by rw [add_right_comm]
    _ = S + {p} + {c} := by rw [e3]
    _ = S + {c} + {p} := by rw [add_right_comm]

theorem siftupLoopFuel_spec {α : Type} :
    ∀ (fuel : Nat) (heap : List (Entry α)) (top pos : Nat) (d : Entry α),
      pos < heap.length →
      heap.length - pos ≤ fuel →
      InSubtree top pos →
      (∀ j, j < heap.length → 0 < j → InSubtree top j → j ≠ top → j ≠ pos →
        parentIdx j ≠ pos →
        entryLtB (heap.getD j d) (heap.getD (parentIdx j) d) = false) →
      (top < pos → ∀ j, j < heap.length → parentIdx j = pos →
        entryLtB (heap.getD j d) (heap.getD (parentIdx pos) d) = false) →
      (siftupLoopFuel fuel heap pos).1.length = heap.length ∧
      (siftupLoopFuel fuel heap pos).2 < heap.length ∧
      InSubtree top (siftupLoopFuel fuel heap pos).2 ∧
      heap.length ≤ 2 * (siftupLoopFuel fuel heap pos).2 + 1 ∧
      (∀ k, ¬ InSubtree top k →
        (siftupLoopFuel fuel heap pos).1.getD k d = heap.getD k d) ∧
      (∀ x, (((siftupLoopFuel fuel heap pos).1.set (siftupLoopFuel fuel heap pos).2 x :
          List (Entry α)) : Multiset (Entry α))
        = ((heap.set pos x : List (Entry α)) : Multiset (Entry α))) ∧
      (∀ j, j < heap.length → 0 < j → InSubtree top j → j ≠ top →
        j ≠ (siftupLoopFuel fuel heap pos).2 →
        parentIdx j ≠ (siftupLoopFuel fuel heap pos).2 →
        entryLtB ((siftupLoopFuel fuel heap pos).1.getD j d)
          ((siftupLoopFuel fuel heap pos).1.getD (parentIdx j) d) = false) := by
  intro fuel
  induction fuel with
  | zero =>
    intro heap top pos d hlen hfuel hsub hS4 hS6
    omega
  | succ fuel ih =>
    intro heap top pos d hlen hfuel hsub hS4 hS6
    by_cases hch : 2 * pos + 1 < heap.length
    · simp only [siftupLoopFuel]
      rw [dif_pos hch]
      have hcplt : (smallerChild heap pos hch).val < heap.length :=
        (smallerChild heap pos hch).isLt
      have hcpgt : pos < (smallerChild heap pos hch).val := smallerChild_gt heap pos hch
      have hcppar : parentIdx (smallerChild heap pos hch).val = pos :=
        smallerChild_parent heap pos hch
      have hlen2 : (heap.set pos (heap.get (smallerChild heap pos hch))).length
          = heap.length := by
        simp [List.length_set]
      have hvpos : (heap.set pos (heap.get (smallerChild heap pos hch))).getD pos d
          = heap.getD (smallerChild heap pos hch).val d := by
        rw [getD_set_self _ _ _ _ hlen, getD_eq_get _ _ _ hcplt]
      have hv : ∀ k, k ≠ pos →
          (heap.set pos (heap.get (smallerChild heap pos hch))).getD k d
            = heap.getD k d := by
        intro k hk
        exact getD_set_ne _ _ _ _ _ (fun he => hk he.symm)
      obtain ⟨L, hr2, hsubr, hleaf, hout, hms, hedge⟩ :=
        ih (heap.set pos (heap.get (smallerChild heap pos hch))) top
          (smallerChild heap pos hch).val d
          (by rw [hlen2]; exact hcplt)
          (by rw [hlen2]; omega)
          (hsub.child hcppar (by omega))
          (by
            intro j hj h0 hjsub hjtop hjcp hpjcp
            rw [hlen2] at hj
            by_cases hjpos : j = pos
            · have htop : top < pos := by
                rcases Nat.lt_or_ge top pos with h | h
                · exact h
                · exfalso
                  have := hsub.start_le
                  apply hjtop
                  omega
              rw [hjpos, hvpos, hv (parentIdx pos) (by
                have := parentIdx_lt (show 0 < pos by omega)
                omega)]
              exact hS6 htop (smallerChild heap pos hch).val hcplt hcppar
            · rw [hv j hjpos]
              by_cases hpj : parentIdx j = pos
              · rw [hpj, hvpos]
                exact smallerChild_min heap pos hch d j hj h0 hpj
              · rw [hv (parentIdx j) hpj]
                exact hS4 j hj h0 hjsub hjtop hjpos hpj)
          (by
            intro htop j hj hpj
            rw [hlen2] at hj
            have h0j : 0 < j := by
              rcases Nat.eq_zero_or_pos j with hz | h
              · exfalso
                rw [hz] at hpj
                have hz0 : parentIdx 0 = 0 := rfl
                omega
              · exact h
            have hjgt : (smallerChild heap pos hch).val < j := by
              rcases child_of_parentIdx h0j hpj with h | h <;> omega
            rw [hcppar, hvpos, hv j (by omega)]
            have := hS4 j hj h0j
              ((hsub.child hcppar (by omega)).child hpj h0j)
              (by omega) (by omega) (by rw [hpj]; omega)
            rw [hpj] at this
            exact this)
      · refine ⟨by omega, by omega, hsubr, by omega, ?_, ?_, ?_⟩
        · -- unchanged outside the subtree
          intro k hk
          rw [hout k hk, hv k (fun he => hk (by rw [he]; exact hsub))]
        · -- hole-filling multiset equivalence
          intro x
          rw [hms x]
          have hgcp : (heap.set pos (heap.get (smallerChild heap pos hch))).get
              ⟨(smallerChild heap pos hch).val, by rw [hlen2]; exact hcplt⟩
              = heap.get (smallerChild heap pos hch) := by
            rw [← getD_eq_get _ _ d (by rw [hlen2]; exact hcplt),
              hv _ (by omega), getD_eq_get _ _ _ hcplt]
          have e1 := ms_set (heap.set pos (heap.get (smallerChild heap pos hch)))
            (smallerChild heap pos hch).val x (by rw [hlen2]; exact hcplt)
          rw [hgcp] at e1
          have e2 := ms_set heap pos (heap.get (smallerChild heap pos hch)) hlen
          have e3 := ms_set heap pos x hlen
          exact ms_hole_trans e1 e2 e3
        · -- the partial-heap edges, translated back
          intro j hj h0 hjsub hjtop hjr2 hpjr2
          exact hedge j (by omega) h0 hjsub hjtop hjr2 hpjr2
    · simp only [siftupLoopFuel]
      rw [dif_neg hch]
      refine ⟨rfl, hlen, hsub, by omega, fun k hk => rfl, fun x => rfl, ?_⟩
      intro j hj h0 hjsub hjtop hjp hpjp
      exact hS4 j hj h0 hjsub hjtop hjp hpjp



theorem getD_indep {γ : Type} (l : List γ) (i : Nat) (d1 d2 : γ)
    (h : i < l.length) : l.getD i d1 = l.getD i d2 := by
  rw [getD_eq_get _ _ _ h, getD_eq_get _ _ _ h]

theorem getD_eq_default {γ : Type} (l : List γ) (i : Nat) (d : γ)
    (h : l.length ≤ i) : l.getD i d = d := by
  induction l generalizing i with
  | nil => rfl
  | cons a t ih =>
    cases i with
    | zero => simp at h
    | succ n => exact ih n (by simpa using h)

theorem siftup_eq {α : Type} (heap : List (Entry α)) (pos : Nat)
    (h : pos < heap.length) :
    siftup heap pos
      = siftdownFuel ((siftupLoopFuel heap.length heap pos).2 + 1)
          (heap.get ⟨pos, h⟩)
          ((siftupLoopFuel heap.length heap pos).1.set
            (siftupLoopFuel heap.length heap pos).2 (heap.get ⟨pos, h⟩))
          pos (siftupLoopFuel heap.length heap pos).2 := by
  unfold siftup
  rw [dif_pos h]

theorem child_ge {j : Nat} (h : 0 < j) : 2 * parentIdx j + 1 ≤ j := by
  unfold parentIdx
  omega

theorem siftup_spec {α : Type} (heap : List (Entry α)) (top : Nat) (d : Entry α)
    (hlen : top < heap.length)
    (hpre : ∀ j, j < heap.length → 0 < j → InSubtree top j → j ≠ top →
      parentIdx j ≠ top →
      entryLtB (heap.getD j d) (heap.getD (parentIdx j) d) = false) :
    (siftup heap top).length = heap.length ∧
    ((siftup heap top : List (Entry α)) : Multiset (Entry α))
      = (heap : Multiset (Entry α)) ∧
    (∀ k, ¬ InSubtree top k → (siftup heap top).getD k d = heap.getD k d) ∧
    (∀ j, j < heap.length → 0 < j → InSubtree top j → j ≠ top →
      entryLtB ((siftup heap top).getD j d)
        ((siftup heap top).getD (parentIdx j) d) = false) := by
  obtain ⟨L, hr2, hsubr, hleaf, hout, hms, hedge⟩ :=
    siftupLoopFuel_spec heap.length heap top top d hlen (by omega) InSubtree.refl
      (fun j hj h0 hjsub hjtop _ hpjtop => hpre j hj h0 hjsub hjtop hpjtop)
      (fun hh => absurd hh (Nat.lt_irrefl top))
  rw [siftup_eq heap top hlen]
  have hlen3 : ((siftupLoopFuel heap.length heap top).1.set
      (siftupLoopFuel heap.length heap top).2 (heap.get ⟨top, hlen⟩)).length
      = heap.length := by
    rw [List.length_set, L]
  have hnochild : ∀ j, j < heap.length → 0 < j →
      parentIdx j ≠ (siftupLoopFuel heap.length heap top).2 := by
    intro j hj h0 hpj
    have := child_ge h0
    omega
  obtain ⟨hedges, hunch⟩ :=
    siftdownFuel_spec ((siftupLoopFuel heap.length heap top).2 + 1)
      ((siftupLoopFuel heap.length heap top).1.set
        (siftupLoopFuel heap.length heap top).2 (heap.get ⟨top, hlen⟩))
      top (siftupLoopFuel heap.length heap top).2 (heap.get ⟨top, hlen⟩)
      (by omega) (by omega) hsubr
      (by
        intro j hj h0 hjsub hjtop hjr2
        rw [hlen3] at hj
        rw [List.set_set]
        have hpj : parentIdx j ≠ (siftupLoopFuel heap.length heap top).2 :=
          hnochild j hj h0
        rw [getD_set_ne _ _ _ _ _ (fun he => hjr2 he.symm),
          getD_set_ne _ _ _ _ _ (fun he => hpj he.symm),
          getD_indep _ j _ d (by omega),
          getD_indep _ (parentIdx j) _ d (by
            have := parentIdx_lt h0
            omega)]
        exact hedge j hj h0 hjsub hjtop hjr2 hpj)
      (by
        intro htop j hj hpj
        exfalso
        rw [hlen3] at hj
        have h0j : 0 < j := by
          rcases Nat.eq_zero_or_pos j with hz | h
          · exfalso
            rw [hz] at hpj
            have hz0 : parentIdx 0 = 0 := rfl
            omega
          · exact h
        exact hnochild j hj h0j hpj)
  have hreslen : (siftdownFuel ((siftupLoopFuel heap.length heap top).2 + 1)
      (heap.get ⟨top, hlen⟩)
      ((siftupLoopFuel heap.length heap top).1.set
        (siftupLoopFuel heap.length heap top).2 (heap.get ⟨top, hlen⟩))
      top (siftupLoopFuel heap.length heap top).2).length = heap.length := by
    rw [siftdownFuel_length, hlen3]
  refine ⟨hreslen, ?_, ?_, ?_⟩
  · have hms2 := siftdownFuel_ms ((siftupLoopFuel heap.length heap top).2 + 1)
      (heap.get ⟨top, hlen⟩)
      ((siftupLoopFuel heap.length heap top).1.set
        (siftupLoopFuel heap.length heap top).2 (heap.get ⟨top, hlen⟩))
      top (siftupLoopFuel heap.length heap top).2 (by omega)
    have hgself : ((siftupLoopFuel heap.length heap top).1.set
        (siftupLoopFuel heap.length heap top).2 (heap.get ⟨top, hlen⟩)).get
        ⟨(siftupLoopFuel heap.length heap top).2, by omega⟩
        = heap.get ⟨top, hlen⟩ := by
      rw [← getD_eq_get _ _ (heap.get ⟨top, hlen⟩) (by omega)]
      exact getD_set_self _ _ _ _ (by omega)
    rw [hgself] at hms2
    have step1 := ms_cancel (heap.get ⟨top, hlen⟩) hms2
    rw [step1, hms (heap.get ⟨top, hlen⟩)]
    refine ms_cancel (heap.get ⟨top, hlen⟩) ?_
    exact ms_set heap top (heap.get ⟨top, hlen⟩) hlen
  · intro k hk
    by_cases hkl : k < heap.length
    · rw [getD_indep _ k d (heap.get ⟨top, hlen⟩) (by omega), hunch k hk,
        getD_set_ne _ _ _ _ _ (fun he => hk (by rw [he] at hsubr; exact hsubr)),
        getD_indep _ k (heap.get ⟨top, hlen⟩) d (by omega)]
      exact hout k hk
    · rw [getD_eq_default _ _ _ (by omega), getD_eq_default _ _ _ (by omega)]
  · intro j hj h0 hjsub hjtop
    have e := hedges j (by omega) h0 hjsub hjtop
    rwa [getD_indep _ j (heap.get ⟨top, hlen⟩) d (by omega),
      getD_indep _ (parentIdx j) (heap.get ⟨top, hlen⟩) d (by
        have := parentIdx_lt h0
        omega)] at e



theorem heapifyLoop_spec {α : Type} (d : Entry α) :
    ∀ (k : Nat) (heap : List (Entry α)),
      k ≤ heap.length →
      (∀ j, j < heap.length → 0 < j → k ≤ parentIdx j →
        entryLtB (heap.getD j d) (heap.getD (parentIdx j) d) = false) →
      (heapifyLoop k heap).length = heap.length ∧
      ((heapifyLoop k heap : List (Entry α)) : Multiset (Entry α))
        = (heap : Multiset (Entry α)) ∧
      (∀ j, j < heap.length → 0 < j →
        entryLtB ((heapifyLoop k heap).getD j d)
          ((heapifyLoop k heap).getD (parentIdx j) d) = false) := by
  intro k
  induction k with
  | zero =>
    intro heap hk hinv
    exact ⟨rfl, rfl, fun j hj h0 => hinv j hj h0 (Nat.zero_le _)⟩
  | succ k ih =>
    intro heap hk hinv
    have hkl : k < heap.length := by omega
    obtain ⟨sL, sM, sOut, sEdge⟩ := siftup_spec heap k d hkl
      (by
        intro j hj h0 hjsub hjk hpjk
        have hge : k ≤ parentIdx j := ((hjsub.up hjk).2).start_le
        exact hinv j hj h0 (by omega))
    obtain ⟨L2, M2, E2⟩ := ih (siftup heap k) (by omega)
      (by
        intro j hj h0 hkp
        rw [sL] at hj
        by_cases hjsub : InSubtree k j
        · have hjk : j ≠ k := by
            intro he
            subst he
            rcases Nat.eq_zero_or_pos j with hz | hpos
            · omega
            · have := parentIdx_lt hpos
              omega
          exact sEdge j hj h0 hjsub hjk
        · have hpsub : ¬ InSubtree k (parentIdx j) := by
            intro hc
            exact hjsub (hc.child rfl h0)
          rw [sOut j hjsub, sOut (parentIdx j) hpsub]
          have hpk : parentIdx j ≠ k := by
            intro he
            exact hjsub (by rw [← he] at *; exact InSubtree.child InSubtree.refl rfl h0)
          exact hinv j hj h0 (by omega))
    have hunfold : heapifyLoop (k + 1) heap = heapifyLoop k (siftup heap k) := rfl
    rw [hunfold]
    refine ⟨by rw [L2, sL], by rw [M2, sM], ?_⟩
    intro j hj h0
    exact E2 j (by rw [sL]; exact hj) h0

theorem heapify_spec {α : Type} (heap : List (Entry α)) (d : Entry α) :
    (heapify heap).length = heap.length ∧
    ((heapify heap : List (Entry α)) : Multiset (Entry α))
      = (heap : Multiset (Entry α)) ∧
    IsHeap (heapify heap) := by
  unfold heapify
  obtain ⟨L, M, E⟩ := heapifyLoop_spec d (heap.length / 2) heap
    (by omega)
    (by
      intro j hj h0 hkp
      exfalso
      have := child_ge h0
      omega)
  refine ⟨L, M, ?_⟩
  apply isHeap_of_getD _ d
  intro j hj h0
  rw [L] at hj
  exact E j hj h0

theorem heappop_root {α : Type} (heap : List (Entry α)) (h0 : 0 < heap.length) :
    ∃ newheap, heappop heap = some (heap.get ⟨0, h0⟩, newheap) := by
  unfold heappop
  cases heap with
  | nil => simp at h0
  | cons a t =>
    cases t with
    | nil => exact ⟨[], rfl⟩
    | cons b t2 =>
      have hd : (a :: b :: t2).dropLast = a :: (b :: t2).dropLast := rfl
      rw [hd]
      exact ⟨_, rfl⟩




theorem foldl_push_spec {α : Type} :
    ∀ (pushes : List (α × Int)) (q : PriorityQueue α),
      (pushes.foldl (fun q p => q.push p.1 p.2) q).counter
          = q.counter + pushes.length ∧
      (pushes.foldl (fun q p => q.push p.1 p.2) q).data.length
          = q.data.length + pushes.length ∧
      (((pushes.foldl (fun q p => q.push p.1 p.2) q).data : List (Entry α)) :
          Multiset (Entry α))
        = (q.data : Multiset (Entry α)) + (entriesFrom q.counter pushes : Multiset (Entry α)) ∧
      (IsHeap q.data → IsHeap (pushes.foldl (fun q p => q.push p.1 p.2) q).data) := by
  intro pushes
  induction pushes with
  | nil =>
    intro q
    refine ⟨rfl, rfl, by simp [entriesFrom], fun h => h⟩
  | cons ep rest ih =>
    intro q
    have hstep : (ep :: rest).foldl (fun q p => q.push p.1 p.2) q
        = rest.foldl (fun q p => q.push p.1 p.2) (q.push ep.1 ep.2) := rfl
    rw [hstep]
    obtain ⟨hc, hl, hm, hh⟩ := ih (q.push ep.1 ep.2)
    have hcp : (q.push ep.1 ep.2).counter = q.counter + 1 := rfl
    have hdp : (q.push ep.1 ep.2).data = heappush q.data ⟨ep.2, q.counter, ep.1⟩ := rfl
    refine ⟨by rw [hc, hcp]; simp; omega, ?_, ?_, ?_⟩
    · rw [hl, hdp, heappush_length]
      simp
      omega
    · rw [hm, hdp, heappush_ms, hcp]
      have he : (entriesFrom q.counter (ep :: rest) : Multiset (Entry α))
          = (⟨ep.2, q.counter, ep.1⟩ : Entry α) ::ₘ (entriesFrom (q.counter + 1) rest :
              Multiset (Entry α)) := rfl
      rw [he, add_assoc, Multiset.singleton_add]
    · intro hq
      exact hh (by rw [hdp]; exact heappush_isHeap _ _ hq)

theorem entriesFrom_mem {α : Type} :
    ∀ (l : List (α × Int)) (c : Nat) (ent : Entry α),
      ent ∈ entriesFrom c l
        ↔ ∃ i, ∃ hi : i < l.length,
            ent = ⟨(l.get ⟨i, hi⟩).2, c + i, (l.get ⟨i, hi⟩).1⟩ := by
  intro l
  induction l with
  | nil =>
    intro c ent
    simp [entriesFrom]
  | cons ep rest ih =>
    intro c ent
    constructor
    · intro h
      rcases List.mem_cons.mp h with he | ht
      · exact ⟨0, by simp, by simpa using he⟩
      · obtain ⟨i, hi, hev⟩ := (ih (c + 1) ent).mp ht
        exact ⟨i + 1, by simpa using hi, by
          simpa [Nat.add_comm, Nat.add_assoc, Nat.add_left_comm] using hev⟩
    · rintro ⟨i, hi, hev⟩
      cases i with
      | zero =>
        exact List.mem_cons.mpr (Or.inl (by simpa using hev))
      | succ n =>
        refine List.mem_cons.mpr (Or.inr ((ih (c + 1) ent).mpr ⟨n, by simpa using hi, ?_⟩))
        simpa [Nat.add_comm, Nat.add_assoc, Nat.add_left_comm] using hev



theorem pq_pop_spec {α : Type} (q : PriorityQueue α) (h0 : 0 < q.data.length) :
    ∃ q', q.pop = some ((q.data.get ⟨0, h0⟩).elem, q') := by
  obtain ⟨nh, hh⟩ := heappop_root q.data h0
  refine ⟨{ q with data := nh }, ?_⟩
  unfold PriorityQueue.pop
  rw [hh]
  rfl

theorem buildPQ_pop_min {α : Type} (pushes : List (α × Int)) (hne : pushes ≠ []) :
    ∃ j, ∃ hj : j < pushes.length, ∃ q' : PriorityQueue α,
      (buildPQ pushes).pop = some ((pushes.get ⟨j, hj⟩).1, q') ∧
      (∀ k (hk : k < pushes.length),
        (pushes.get ⟨j, hj⟩).2 ≤ (pushes.get ⟨k, hk⟩).2) ∧
      (∀ k (hk : k < pushes.length), k < j →
        (pushes.get ⟨j, hj⟩).2 < (pushes.get ⟨k, hk⟩).2) := by
  obtain ⟨hc, hl, hm, hh⟩ := foldl_push_spec pushes ⟨0, []⟩
  have hlen : 0 < (buildPQ pushes).data.length := by
    have : (buildPQ pushes).data.length = pushes.length := by
      unfold buildPQ
      rw [hl]
      simp
    rw [this]
    cases pushes with
    | nil => exact absurd rfl hne
    | cons a t => simp
  have hheap : IsHeap (buildPQ pushes).data := by
    unfold buildPQ
    apply hh
    intro j hj h0
    simp at hj
  obtain ⟨q', hpop⟩ := pq_pop_spec (buildPQ pushes) hlen
  have hmem_iff : ∀ ent : Entry α,
      ent ∈ (buildPQ pushes).data ↔ ent ∈ entriesFrom 0 pushes := by
    intro ent
    have h1 : (ent ∈ ((buildPQ pushes).data : Multiset (Entry α)))
        ↔ ent ∈ ((entriesFrom 0 pushes : List (Entry α)) : Multiset (Entry α)) := by
      unfold buildPQ
      rw [hm]
      simp
    simpa using h1
  have hroot_mem := (hmem_iff ((buildPQ pushes).data.get ⟨0, hlen⟩)).mp
    (List.get_mem (buildPQ pushes).data 0 hlen)
  obtain ⟨j, hj, hrootev⟩ := (entriesFrom_mem pushes 0 _).mp hroot_mem
  have hroot_min : ∀ k, ∀ hk : k < pushes.length,
      keyLe ((buildPQ pushes).data.get ⟨0, hlen⟩)
        ⟨(pushes.get ⟨k, hk⟩).2, 0 + k, (pushes.get ⟨k, hk⟩).1⟩ := by
    intro k hk
    have hkmem : (⟨(pushes.get ⟨k, hk⟩).2, 0 + k, (pushes.get ⟨k, hk⟩).1⟩ : Entry α)
        ∈ (buildPQ pushes).data :=
      (hmem_iff _).mpr ((entriesFrom_mem pushes 0 _).mpr ⟨k, hk, rfl⟩)
    obtain ⟨idx, hidx⟩ := List.mem_iff_get.mp hkmem
    rw [← hidx]
    exact isHeap_root_min _ hheap idx.val idx.isLt hlen
  refine ⟨j, hj, q', ?_, ?_, ?_⟩
  · rw [hpop, hrootev]
  · intro k hk
    have := hroot_min k hk
    rw [hrootev] at this
    unfold keyLe at this
    simp only [Entry.mk.injEq] at this ⊢
    omega
  · intro k hk hkj
    have := hroot_min k hk
    rw [hrootev] at this
    unfold keyLe at this
    simp only [Entry.mk.injEq] at this ⊢
    omega



theorem findFirstIdx_spec {α : Type} [DecidableEq α] :
    ∀ (l : List (Entry α)) (x : α) (i : Nat) (ent : Entry α),
      PriorityQueue.findFirstIdx l x = some (i, ent) →
      ∃ hi : i < l.length, l.get ⟨i, hi⟩ = ent ∧ ent.elem = x ∧
        ∀ k (hk : k < l.length), k < i → (l.get ⟨k, hk⟩).elem ≠ x := by
  intro l
  induction l with
  | nil =>
    intro x i ent h
    simp [PriorityQueue.findFirstIdx] at h
  | cons e0 rest ih =>
    intro x i ent h
    unfold PriorityQueue.findFirstIdx at h
    by_cases he : e0.elem = x
    · rw [if_pos he] at h
      simp only [Option.some.injEq, Prod.mk.injEq] at h
      obtain ⟨hi0, hent⟩ := h
      subst hi0
      subst hent
      exact ⟨by simp, rfl, he, fun k hk hki => absurd hki (by omega)⟩
    · rw [if_neg he] at h
      cases hrec : PriorityQueue.findFirstIdx rest x with
      | none =>
        rw [hrec] at h
        simp at h
      | some p =>
        rw [hrec] at h
        simp only [Option.map_some', Option.some.injEq, Prod.mk.injEq] at h
        obtain ⟨hi1, hent⟩ := h
        subst hi1
        subst hent
        obtain ⟨hplt, hget, helem, hprev⟩ := ih x p.1 p.2 (by rw [hrec])
        refine ⟨by simp; omega, ?_, helem, ?_⟩
        · exact hget
        · intro k hk hki
          cases k with
          | zero => exact he
          | succ m =>
            have hgm : (e0 :: rest).get ⟨m + 1, hk⟩ = rest.get ⟨m, by simpa using hk⟩ := rfl
            rw [hgm]
            exact hprev m (by simpa using hk) (by omega)



theorem update_noop {α : Type} [DecidableEq α] (q : PriorityQueue α) (x : α)
    (p : Int) (i : Nat) (ent : Entry α)
    (hf : PriorityQueue.findFirstIdx q.data x = some (i, ent))
    (hle : ent.prio ≤ p) : q.update x p = q := by
  unfold PriorityQueue.update
  rw [hf]
  simp only [if_pos hle]

theorem update_notfound {α : Type} [DecidableEq α] (q : PriorityQueue α) (x : α)
    (p : Int) (hf : PriorityQueue.findFirstIdx q.data x = none) :
    q.update x p = q.push x p := by
  unfold PriorityQueue.update
  rw [hf]

theorem update_found {α : Type} [DecidableEq α] (q : PriorityQueue α) (x : α)
    (p : Int) (i : Nat) (ent : Entry α)
    (hf : PriorityQueue.findFirstIdx q.data x = some (i, ent))
    (hgt : p < ent.prio) :
    ((q.update x p).data : Multiset (Entry α)) + {ent}
        = (q.data : Multiset (Entry α)) + {(⟨p, ent.count, x⟩ : Entry α)} ∧
    IsHeap (q.update x p).data ∧
    (q.update x p).counter = q.counter ∧
    (⟨p, ent.count, x⟩ : Entry α) ∈ (q.update x p).data := by
  obtain ⟨hi, hget, helem, hprev⟩ := findFirstIdx_spec q.data x i ent hf
  have hupd : (q.update x p).data
      = heapify ((q.data.eraseIdx i) ++ [⟨p, ent.count, x⟩]) ∧
      (q.update x p).counter = q.counter := by
    unfold PriorityQueue.update
    rw [hf]
    simp only [if_neg ((by omega : ¬ ent.prio ≤ p))]
    exact ⟨by first | rfl | trivial, by first | rfl | trivial⟩
  obtain ⟨hL, hM, hH⟩ := heapify_spec ((q.data.eraseIdx i) ++ [⟨p, ent.count, x⟩])
    (⟨p, ent.count, x⟩ : Entry α)
  have hmsapp : (((q.data.eraseIdx i) ++ [(⟨p, ent.count, x⟩ : Entry α)] :
      List (Entry α)) : Multiset (Entry α))
      = ((q.data.eraseIdx i : List (Entry α)) : Multiset (Entry α))
        + {(⟨p, ent.count, x⟩ : Entry α)} := rfl
  refine ⟨?_, by rw [hupd.1]; exact hH, hupd.2, ?_⟩
  · rw [hupd.1, hM, hmsapp, add_right_comm]
    have he := ms_eraseIdx q.data i hi
    rw [hget] at he
    rw [he]
  · rw [hupd.1]
    have : (⟨p, ent.count, x⟩ : Entry α) ∈ ((heapify ((q.data.eraseIdx i)
        ++ [(⟨p, ent.count, x⟩ : Entry α)]) : List (Entry α)) : Multiset (Entry α)) := by
      rw [hM]
      simp
    simpa using this



theorem expand_mem_fields {σ β : Type} (par c : Node σ β)
    (sf : σ → List (σ × β × Int)) (h : c ∈ par.expand sf) :
    c.parent = some par ∧ c.depth = par.depth + 1 := by
  unfold Node.expand at h
  obtain ⟨t, _, rfl⟩ := List.mem_map.mp h
  exact ⟨rfl, rfl⟩

theorem ancestors_parent_some {σ β : Type} (s : σ) (a : Option β)
    (p : Node σ β) (pc : Int) (d : Nat) :
    ancestors (Node.mk s a (some p) pc d)
      = ancestors p ++ [Node.mk s a (some p) pc d] := rfl

theorem ancestors_parent_none {σ β : Type} (s : σ) (a : Option β)
    (pc : Int) (d : Nat) :
    ancestors (Node.mk s a none pc d) = [Node.mk s a none pc d] := rfl

theorem ancestors_ne_nil {σ β : Type} (n : Node σ β) : ancestors n ≠ [] := by
  cases n with
  | mk s a p pc d =>
    cases p with
    | none => simp [ancestors_parent_none]
    | some q => simp [ancestors_parent_some]

theorem ancestors_getLast {σ β : Type} (n : Node σ β) :
    (ancestors n).getLast? = some n := by
  cases n with
  | mk s a p pc d =>
    cases p with
    | none => rfl
    | some q =>
      rw [ancestors_parent_some, List.getLast?_concat]

theorem ancestors_length_wf {σ β : Type} (n : Node σ β) (h : WellFormed n) :
    (ancestors n).length = n.depth + 1 := by
  induction h with
  | root s => rfl
  | child par sf c hwf hmem ih =>
    unfold Node.expand at hmem
    obtain ⟨t, _, rfl⟩ := List.mem_map.mp hmem
    rw [ancestors_parent_some]
    simp only [List.length_append, List.length_cons, List.length_nil]
    rw [ih]
    rfl

theorem ancestors_head_chainRoot {σ β : Type} :
    ∀ (n : Node σ β), (ancestors n).head? = some (chainRoot n)
  | .mk s a none pc d => rfl
  | .mk s a (some p) pc d => by
    rw [ancestors_parent_some]
    cases hne : ancestors p with
    | nil => exact absurd hne (ancestors_ne_nil p)
    | cons y t =>
      have ih := ancestors_head_chainRoot p
      rw [hne] at ih
      simp only [List.cons_append, List.head?_cons] at ih ⊢
      exact ih

theorem chainRoot_wf {σ β : Type} (n : Node σ β) (h : WellFormed n) :
    ∃ s0 : σ, chainRoot n = Node.mk s0 none none 0 0 := by
  induction h with
  | root s => exact ⟨s, rfl⟩
  | child par sf c hwf hmem ih =>
    unfold Node.expand at hmem
    obtain ⟨t, _, rfl⟩ := List.mem_map.mp hmem
    exact ih



theorem pfnLoop_run {σ β : Type} (c : Node σ β) (hwf : WellFormed c) :
    ∀ (dp1 rem i : Nat) (path : List (Option (Node σ β))),
      path.length = dp1 → i + c.depth = dp1 → 1 ≤ i → rem + i = dp1 + 1 →
      Node.pfnLoop dp1 rem (some c) i path
        = some (((ancestors c).map some) ++ path.drop (dp1 - i + 1)) := by
  induction hwf with
  | root s =>
    intro dp1 rem i path hlen hdep h1 hrem
    have hd0 : (Node.mk s none none 0 0 : Node σ β).depth = 0 := rfl
    rw [hd0] at hdep
    have hi : i = dp1 := by omega
    obtain ⟨rem', hrem'⟩ : ∃ r, rem = r + 1 := ⟨rem - 1, by omega⟩
    subst hrem'
    have hr0 : rem' = 0 := by omega
    subst hr0
    subst hi
    show some (path.set (i - i) (some (Node.mk s none none 0 0)))
      = some (((ancestors (Node.mk s none none 0 0 : Node σ β)).map some)
          ++ path.drop (i - i + 1))
    rw [Nat.sub_self]
    rw [ancestors_parent_none]
    have hset := drop_set_eq path 0 (some (Node.mk s none none 0 0 : Node σ β))
      (by omega)
    simp only [List.drop_zero] at hset
    rw [hset]
    rfl
  | child par sf c hwfp hmem ih =>
    intro dp1 rem i path hlen hdep h1 hrem
    unfold Node.expand at hmem
    obtain ⟨t, htmem, rfl⟩ := List.mem_map.mp hmem
    have hdc : (Node.mk t.1 (some t.2.1) (some par) (t.2.2 + par.path_cost)
        (par.depth + 1) : Node σ β).depth = par.depth + 1 := rfl
    rw [hdc] at hdep
    have hilt : i < dp1 := by omega
    obtain ⟨rem', hrem'⟩ : ∃ r, rem = r + 1 := ⟨rem - 1, by omega⟩
    subst hrem'
    show Node.pfnLoop dp1 rem' (some par) (i + 1)
        (path.set (dp1 - i) (some (Node.mk t.1 (some t.2.1) (some par)
          (t.2.2 + par.path_cost) (par.depth + 1))))
      = _
    rw [ih dp1 rem' (i + 1)
      (path.set (dp1 - i) (some (Node.mk t.1 (some t.2.1) (some par)
        (t.2.2 + par.path_cost) (par.depth + 1))))
      (by rw [List.length_set]; exact hlen) (by omega) (by omega) (by omega)]
    have harith : dp1 - (i + 1) + 1 = dp1 - i := by omega
    rw [harith]
    rw [drop_set_eq path (dp1 - i)
      (some (Node.mk t.1 (some t.2.1) (some par)
        (t.2.2 + par.path_cost) (par.depth + 1))) (by omega)]
    have harith2 : dp1 - i + 1 = dp1 - i + 1 := rfl
    rw [ancestors_parent_some]
    simp [List.map_append]



theorem node_path_run {σ β : Type} (n : Node σ β) (h : WellFormed n) :
    n.node_path = some ((ancestors n).map some) := by
  unfold Node.node_path
  rw [pfnLoop_run n h (n.depth + 1) (n.depth + 1) 1 _ (by simp) (by omega)
    (by omega) (by omega)]
  have hdrop : (List.replicate (n.depth + 1) (none : Option (Node σ β))).drop
      (n.depth + 1 - 1 + 1) = [] := by
    apply List.drop_eq_nil_of_le
    simp
  rw [hdrop]
  simp


theorem buildFIFO_data {α : Type} (es : List α) :
    ∀ q : FIFOQueue α, (es.foldl FIFOQueue.push q).data = es.reverse ++ q.data := by
  induction es with
  | nil => intro q; simp
  | cons e t ih =>
    intro q
    have hstep : (e :: t).foldl FIFOQueue.push q = t.foldl FIFOQueue.push ⟨e :: q.data⟩ := rfl
    rw [hstep, ih]
    simp

theorem fifo_pop_concat {α : Type} (l : List α) (e : α) :
    (⟨l ++ [e]⟩ : FIFOQueue α).pop = some (e, ⟨l⟩) := by
  unfold FIFOQueue.pop
  rw [List.getLast?_concat]
  simp [List.dropLast_concat]

theorem drain_rev {α : Type} : ∀ es : List α, drainFIFO es.length ⟨es.reverse⟩ = es := by
  intro es
  induction es with
  | nil => rfl
  | cons e t ih =>
    have hr : (e :: t).reverse = t.reverse ++ [e] := by simp
    rw [hr]
    show (match (⟨t.reverse ++ [e]⟩ : FIFOQueue α).pop with
      | none => []
      | some (x, q') => x :: drainFIFO t.length q') = e :: t
    rw [fifo_pop_concat]
    show e :: drainFIFO t.length (⟨t.reverse⟩ : FIFOQueue α) = e :: t
    rw [ih]

/-- Claim C1: composing `Node.expand` with `SearchProblem.successors` is
claimed to yield children with `state = result(s, a)` and `action = a`;
on the code, the two are swapped: `successors` yields
`(action, next_state, cost)` while `expand` unpacks
`(state, action, step_cost)`, so each child's state IS the action and its
action IS the successor state (parent, cost and depth are as claimed).
The concrete failing input: from `Node(0)` with `swapProblem`, the single
child has state `5` (the action) and action `105 = result(0, 5)`. -/
theorem claim_c1_expand_successors_swap :
    (∀ (σ : Type) (p : SearchProblem σ σ) (n : Node σ σ),
      ((n.expand p.successors).map Node.state) = p.actions n.state ∧
      ((n.expand p.successors).map Node.action)
        = (p.actions n.state).map (fun a => some (p.result n.state a)) ∧
      ((n.expand p.successors).map Node.path_cost)
        = (p.actions n.state).map (fun a =>
            p.cost_action n.state a (p.result n.state a) + n.path_cost) ∧
      ((n.expand p.successors).map Node.parent)
        = (p.actions n.state).map (fun _ => some n) ∧
      ((n.expand p.successors).map Node.depth)
        = (p.actions n.state).map (fun _ => n.depth + 1)) ∧
    ((rootNodeZero.expand swapProblem.successors).map
        (fun c => (c.state, c.action, c.path_cost, c.depth))
      = [((5 : Int), some (105 : Int), (1 : Int), 1)] ∧
    swapProblem.result 0 5 = 105 ∧ (5 : Int) ≠ 105) := by
  constructor
  · intro σ p n
    refine ⟨?_, ?_, ?_, ?_, ?_⟩ <;>
      simp only [Node.expand, SearchProblem.successors, List.map_map] <;>
      simp [Function.comp_def, Node.state, Node.action, Node.path_cost,
        Node.parent, Node.depth]
  · exact ⟨rfl, rfl, by decide⟩

/-- Claim C2: `Node.path` is claimed to return the actions in
root-to-current order (`[n1.action, n2.action, n3.action]` for a 3-chain).
On the code, the loop writes `path[-i]` starting at `i = 0`, so `path[0]`
receives the CURRENT node's action and the rest shift: the 3-chain built
by repeated expansion yields `[a3, a1, a2] = [30, 10, 20]` instead of
`[10, 20, 30]`.  Length equals depth and the root's path is empty, as
claimed. -/
theorem claim_c2_path_actions_order :
    chainN1 ∈ rootNodeZero.expand sfChain ∧
    chainN2 ∈ chainN1.expand sfChain ∧
    chainN3 ∈ chainN2.expand sfChain ∧
    chainN3.depth = 3 ∧
    chainN3.path = some [some 30, some 10, some 20] ∧
    (some [some (30 : Int), some 10, some 20]
      ≠ some [some (10 : Int), some 20, some 30]) ∧
    rootNodeZero.path = some [] := by
  refine ⟨List.mem_singleton.mpr rfl, List.mem_singleton.mpr rfl,
    List.mem_singleton.mpr rfl, rfl, rfl, by decide, rfl⟩

/-- Claim C5: all three constructors are claimed to raise
`InvalidArgument` on a present non-list seed; `PriorityQueue.__init__`
has no `else` branch and silently ignores such a seed, producing the same
empty queue as an absent seed. -/
theorem claim_c5_counterexample :
    PriorityQueue.init (Seed.other : Seed (Nat × Int))
      = Except.ok (⟨0, []⟩ : PriorityQueue Nat) := rfl

/-- Claim C5 (amended): the FIFO and LIFO constructors raise on a
non-list seed; the Priority constructor silently ignores it, yielding the
same result as constructing with no seed. -/
theorem claim_c5_amended :
    ∀ (α : Type),
      FIFOQueue.init (Seed.other : Seed α)
        = Except.error "Argument init_queue must be of type list." ∧
      LIFOQueue.init (Seed.other : Seed α)
        = Except.error "Argument init_queue must be of type list." ∧
      PriorityQueue.init (Seed.other : Seed (α × Int))
        = PriorityQueue.init (Seed.none : Seed (α × Int)) := by
  intro α
  exact ⟨rfl, rfl, rfl⟩



/-- Claim C6: for FIFO and LIFO frontiers, `pop` and `top` take the error
branch (Python's `IndexError`, the spec's `EmptyContainer`) exactly when
the frontier is empty. -/
theorem claim_c6_empty_pop_top :
    (∀ (α : Type) (q : FIFOQueue α),
      ((q.pop = none) ↔ q.is_empty = true) ∧ ((q.top = none) ↔ q.is_empty = true)) ∧
    (∀ (α : Type) (q : LIFOQueue α),
      ((q.pop = none) ↔ q.is_empty = true) ∧ ((q.top = none) ↔ q.is_empty = true)) := by
  constructor
  · intro α q
    have hemp : q.is_empty = true ↔ q.data = [] := by
      unfold FIFOQueue.is_empty
      simp [List.length_eq_zero]
    constructor
    · rw [hemp]
      unfold FIFOQueue.pop
      cases hl : q.data.getLast? with
      | none => simp [List.getLast?_eq_none_iff.mp hl]
      | some x =>
        simp only []
        constructor
        · intro h
          simp at h
        · intro h
          rw [h] at hl
          simp at hl
    · rw [hemp]
      unfold FIFOQueue.top
      simp [List.getLast?_eq_none_iff]
  · intro α q
    have hemp : q.is_empty = true ↔ q.data = [] := by
      unfold LIFOQueue.is_empty
      simp [List.length_eq_zero]
    constructor
    · rw [hemp]
      unfold LIFOQueue.pop
      cases hl : q.data.getLast? with
      | none => simp [List.getLast?_eq_none_iff.mp hl]
      | some x =>
        simp only []
        constructor
        · intro h
          simp at h
        · intro h
          rw [h] at hl
          simp at hl
    · rw [hemp]
      unfold LIFOQueue.top
      simp [List.getLast?_eq_none_iff]

/-- Claim C7: pushing `e1, ..., en` into an initially empty FIFO frontier
with no interleaved pops and then popping `n` times returns
`e1, ..., en` in exactly that order. -/
theorem claim_c7_fifo_order :
    ∀ (α : Type) (es : List α), drainFIFO es.length (buildFIFO es) = es := by
  intro α es
  have hd : buildFIFO es = (⟨es.reverse⟩ : FIFOQueue α) := by
    unfold buildFIFO
    have := buildFIFO_data es (⟨[]⟩ : FIFOQueue α)
    rw [show (⟨[]⟩ : FIFOQueue α).data = [] from rfl] at this
    rw [List.append_nil] at this
    cases hq : es.foldl FIFOQueue.push ⟨[]⟩ with
    | mk l =>
      rw [hq] at this
      simp only at this
      rw [this]
  rw [hd]
  exact drain_rev es

/-- Claim C9: `has_element(v, key)` on each frontier variant returns true
iff some stored element `e` satisfies `key e = v`; the operation is a pure
function of the frontier, so the contents are untouched.  In particular,
after pushing `1, 2, 3`, querying `2` under the identity key is true and
querying `9` is false. -/
theorem claim_c9_has_element :
    (∀ (α β : Type) (ii : DecidableEq β) (q : FIFOQueue α) (v : β) (key : α → β),
      (@FIFOQueue.has_element α β ii q v key = true ↔ ∃ e ∈ q.data, key e = v)) ∧
    (∀ (α β : Type) (ii : DecidableEq β) (q : LIFOQueue α) (v : β) (key : α → β),
      (@LIFOQueue.has_element α β ii q v key = true ↔ ∃ e ∈ q.data, key e = v)) ∧
    (∀ (α β : Type) (ii : DecidableEq β) (q : PriorityQueue α) (v : β) (key : α → β),
      (@PriorityQueue.has_element α β ii q v key = true
        ↔ ∃ ent ∈ q.data, key ent.elem = v)) ∧
    (buildFIFO [(1 : Nat), 2, 3]).has_element 2 (fun x => x) = true ∧
    (buildFIFO [(1 : Nat), 2, 3]).has_element 9 (fun x => x) = false ∧
    (buildLIFO [(1 : Nat), 2, 3]).has_element 2 (fun x => x) = true ∧
    (buildLIFO [(1 : Nat), 2, 3]).has_element 9 (fun x => x) = false ∧
    (buildPQ [((1 : Nat), (0 : Int)), (2, 0), (3, 0)]).has_element 2 (fun x => x) = true ∧
    (buildPQ [((1 : Nat), (0 : Int)), (2, 0), (3, 0)]).has_element 9 (fun x => x) = false := by
  refine ⟨?_, ?_, ?_, by decide, by decide, by decide, by decide, by decide, by decide⟩
  · intro α β ii q v key
    unfold FIFOQueue.has_element
    simp [List.any_eq_true]
  · intro α β ii q v key
    unfold LIFOQueue.has_element
    simp [List.any_eq_true]
  · intro α β ii q v key
    unfold PriorityQueue.has_element
    simp [List.any_eq_true]



/-- Claim C3: on a Priority frontier filled by pushes with no interleaved
pops, `pop` returns the element of an entry with minimal priority value,
and among entries of equal minimal priority the one pushed earliest
(every earlier push has strictly greater priority).  In particular
pushing `(A,5), (B,3), (C,3)` and popping three times yields `B, C, A`
(encoded as `1, 2, 3` with pop order `[2, 3, 1]`). -/
theorem claim_c3_priority_pop_order :
    (∀ (α : Type) (pushes : List (α × Int)), pushes ≠ [] →
      ∃ j, ∃ hj : j < pushes.length, ∃ q' : PriorityQueue α,
        (buildPQ pushes).pop = some ((pushes.get ⟨j, hj⟩).1, q') ∧
        (∀ k (hk : k < pushes.length),
          (pushes.get ⟨j, hj⟩).2 ≤ (pushes.get ⟨k, hk⟩).2) ∧
        (∀ k (hk : k < pushes.length), k < j →
          (pushes.get ⟨j, hj⟩).2 < (pushes.get ⟨k, hk⟩).2)) ∧
    popListPQ 3 (buildPQ [((1 : Nat), (5 : Int)), (2, 3), (3, 3)]) = [2, 3, 1] := by
  exact ⟨fun α pushes hne => buildPQ_pop_min pushes hne, by decide⟩

/-- Witness for claim C3 at the push sequence `(1,5), (2,3), (3,3)`. -/
theorem claim_c3_witness :
    ∃ j, ∃ hj : j < ([((1 : Nat), (5 : Int)), (2, 3), (3, 3)]).length,
      ∃ q' : PriorityQueue Nat,
        (buildPQ [((1 : Nat), (5 : Int)), (2, 3), (3, 3)]).pop
          = some ((([((1 : Nat), (5 : Int)), (2, 3), (3, 3)]).get ⟨j, hj⟩).1, q') ∧
        (∀ k (hk : k < ([((1 : Nat), (5 : Int)), (2, 3), (3, 3)]).length),
          (([((1 : Nat), (5 : Int)), (2, 3), (3, 3)]).get ⟨j, hj⟩).2
            ≤ (([((1 : Nat), (5 : Int)), (2, 3), (3, 3)]).get ⟨k, hk⟩).2) ∧
        (∀ k (hk : k < ([((1 : Nat), (5 : Int)), (2, 3), (3, 3)]).length), k < j →
          (([((1 : Nat), (5 : Int)), (2, 3), (3, 3)]).get ⟨j, hj⟩).2
            < (([((1 : Nat), (5 : Int)), (2, 3), (3, 3)]).get ⟨k, hk⟩).2) :=
  claim_c3_priority_pop_order.1 Nat [((1 : Nat), (5 : Int)), (2, 3), (3, 3)]
    (by decide)

/-- Claim C4 (counterexample): the claim reads "update leaves the entries
unchanged when an entry with element equal to X exists whose priority is
at most the new one".  After `push(X,5); push(X,3); push(Y,1)` the heap
array is `[(1,2,Y), (5,0,X), (3,1,X)]`; the entry `(3,1,X)` has priority
`3 ≤ 4`, yet `update(X,4)` scans the array in heap order, hits `(5,0,X)`
first and rewrites it to `(4,0,X)`, changing the stored entries
(X is `0`, Y is `1`). -/
theorem claim_c4_counterexample :
    ((⟨3, 1, 0⟩ : Entry Nat) ∈ (buildPQ [((0 : Nat), (5 : Int)), (0, 3), (1, 1)]).data ∧
      ((3 : Int) ≤ 4)) ∧
    (((buildPQ [((0 : Nat), (5 : Int)), (0, 3), (1, 1)]).update 0 4).data :
        Multiset (Entry Nat))
      ≠ ((buildPQ [((0 : Nat), (5 : Int)), (0, 3), (1, 1)]).data :
        Multiset (Entry Nat)) := by
  exact ⟨⟨by decide, by decide⟩, by decide⟩

/-- Claim C4 (amended): `update(X, p)` acts on the FIRST entry in
heap-array order whose element equals `X` (the scan `findFirstIdx`): if
its priority is `≤ p`, the queue is unchanged; if its priority is
`> p`, that entry is replaced by `(p, count, X)` keeping its counter —
all other entries unchanged as a multiset — and the heap invariant is
re-established; if no entry matches, the call is exactly `push(X, p)`.
Consequently, in the spec's scenario (X stored with priority 10 among
elements with priorities 7 and 12), `update(X,4)` makes X pop first and
`update(X,20)` changes nothing. -/
theorem claim_c4_amended :
    (∀ (α : Type) (ii : DecidableEq α) (q : PriorityQueue α) (x : α) (p : Int)
      (i : Nat) (ent : Entry α),
      @PriorityQueue.findFirstIdx α ii q.data x = some (i, ent) → ent.prio ≤ p →
      @PriorityQueue.update α ii q x p = q) ∧
    (∀ (α : Type) (ii : DecidableEq α) (q : PriorityQueue α) (x : α) (p : Int)
      (i : Nat) (ent : Entry α),
      @PriorityQueue.findFirstIdx α ii q.data x = some (i, ent) → p < ent.prio →
      ((@PriorityQueue.update α ii q x p).data : Multiset (Entry α)) + {ent}
          = (q.data : Multiset (Entry α)) + {(⟨p, ent.count, x⟩ : Entry α)} ∧
        IsHeap (@PriorityQueue.update α ii q x p).data ∧
        (@PriorityQueue.update α ii q x p).counter = q.counter) ∧
    (∀ (α : Type) (ii : DecidableEq α) (q : PriorityQueue α) (x : α) (p : Int),
      @PriorityQueue.findFirstIdx α ii q.data x = none →
      @PriorityQueue.update α ii q x p = q.push x p) ∧
    popListPQ 3 ((buildPQ [((0 : Nat), (10 : Int)), (1, 7), (2, 12)]).update 0 4)
      = [0, 1, 2] ∧
    (buildPQ [((0 : Nat), (10 : Int)), (1, 7), (2, 12)]).update 0 20
      = buildPQ [((0 : Nat), (10 : Int)), (1, 7), (2, 12)] := by
  refine ⟨?_, ?_, ?_, by decide, by decide⟩
  · intro α ii q x p i ent hf hle
    exact update_noop q x p i ent hf hle
  · intro α ii q x p i ent hf hgt
    obtain ⟨hms, hheap, hcnt, _⟩ := update_found q x p i ent hf hgt
    exact ⟨hms, hheap, hcnt⟩
  · intro α ii q x p hf
    exact update_notfound q x p hf

/-- Witness for claim C4 (amended), no-op case: with X stored at priority
10, `update(X, 20)` leaves the queue unchanged. -/
theorem claim_c4_witness :
    (buildPQ [((0 : Nat), (10 : Int))]).update 0 20
      = buildPQ [((0 : Nat), (10 : Int))] :=
  claim_c4_amended.1 Nat instDecidableEqNat (buildPQ [((0 : Nat), (10 : Int))])
    0 20 0 ⟨10, 0, 0⟩ (by decide) (by decide)



/-- Claim C8: for a node whose parent chain was built by repeated
expansion from a root, `Node.node_path` (the spec's `path_states`)
returns `some l` where `l` is the root-to-current ancestor sequence
(`(ancestors n).map some`): its length is `depth + 1`, its first element
is the chain's root — which, for a well-formed chain, is literally a
node `Node.mk s0 none none 0 0` built by the root constructor, so it
carries the root's state — and its last element is the node itself; for
a root the result is the one-element sequence containing the root. -/
theorem claim_c8_node_path :
    (∀ (σ β : Type) (n : Node σ β), WellFormed n →
      ∃ (l : List (Option (Node σ β))) (s0 : σ),
        n.node_path = some l ∧
        l = (ancestors n).map some ∧
        l.length = n.depth + 1 ∧
        chainRoot n = Node.mk s0 none none 0 0 ∧
        l.head? = some (some (chainRoot n)) ∧
        l.getLast? = some (some n)) ∧
    (∀ (σ β : Type) (s : σ),
      (Node.mk s none none 0 0 : Node σ β).node_path
        = some [some (Node.mk s none none 0 0)]) := by
  constructor
  · intro σ β n hwf
    obtain ⟨s0, hs0⟩ := chainRoot_wf n hwf
    refine ⟨(ancestors n).map some, s0, node_path_run n hwf, rfl, ?_, hs0, ?_, ?_⟩
    · rw [List.length_map]
      exact ancestors_length_wf n hwf
    · rw [List.head?_map, ancestors_head_chainRoot]
      rfl
    · rw [List.getLast?_map, ancestors_getLast]
      rfl
  · intro σ β s
    rfl

/-- Witness for claim C8 at the depth-1 chain `Node(0) → chainN1`. -/
theorem claim_c8_witness :
    ∃ (l : List (Option (Node Int Int))) (s0 : Int),
      chainN1.node_path = some l ∧
      l = (ancestors chainN1).map some ∧
      l.length = chainN1.depth + 1 ∧
      chainRoot chainN1 = Node.mk s0 none none 0 0 ∧
      l.head? = some (some (chainRoot chainN1)) ∧
      l.getLast? = some (some chainN1) :=
  claim_c8_node_path.1 Int Int chainN1
    (WellFormed.child rootNodeZero sfChain chainN1 (WellFormed.root 0)
      (List.mem_singleton.mpr rfl))

/-- Claim C10: when `update` lowers the priority of a found entry, the
re-inserted entry `(p, count, X)` keeps the ORIGINAL insertion counter,
so the element still resolves priority ties by its original push time.
In particular with pushes `(X,10), (A,4)` and `update(X,4)`, both end at
priority 4 and X pops first because its counter (0) predates A's (1). -/
theorem claim_c10_update_keeps_counter :
    (∀ (α : Type) (ii : DecidableEq α) (q : PriorityQueue α) (x : α) (p : Int)
      (i : Nat) (ent : Entry α),
      @PriorityQueue.findFirstIdx α ii q.data x = some (i, ent) → p < ent.prio →
      (⟨p, ent.count, x⟩ : Entry α) ∈ (@PriorityQueue.update α ii q x p).data ∧
      (@PriorityQueue.update α ii q x p).counter = q.counter) ∧
    popListPQ 2 ((buildPQ [((0 : Nat), (10 : Int)), (1, 4)]).update 0 4) = [0, 1] := by
  refine ⟨?_, by decide⟩
  intro α ii q x p i ent hf hgt
  obtain ⟨_, _, hcnt, hmem⟩ := update_found q x p i ent hf hgt
  exact ⟨hmem, hcnt⟩

/-- Witness for claim C10: `update(X, 4)` on X stored as `(10, 0, X)`
re-inserts `(4, 0, X)` with the original counter `0`. -/
theorem claim_c10_witness :
    (⟨4, 0, 0⟩ : Entry Nat)
        ∈ ((buildPQ [((0 : Nat), (10 : Int)), (1, 4)]).update 0 4).data ∧
      ((buildPQ [((0 : Nat), (10 : Int)), (1, 4)]).update 0 4).counter
        = (buildPQ [((0 : Nat), (10 : Int)), (1, 4)]).counter :=
  claim_c10_update_keeps_counter.1 Nat instDecidableEqNat
    (buildPQ [((0 : Nat), (10 : Int)), (1, 4)]) 0 4 1 ⟨10, 0, 0⟩
    (by decide) (by decide)

end AlDS
